import Mathlib

/-!
# donut.cpp: a depth-tested ASCII torus rasteriser

Shallow embedding of `src/donut.cpp`.

Modelling conventions.

* `unsigned int` values are natural numbers; every `unsigned int` operation of
  the source is taken modulo `2 ^ 32` (`UINT_MOD`).
* `int` values are integers. An `int` that meets an `unsigned int` operand or
  parameter is reduced modulo `2 ^ 32`; the loop counters of `print_fb` are
  followed through that reduction.
* A `float` converted to `int` is truncated toward zero; `plot` has no result
  when the truncated value does not fit an `int`.
* `float` values are elements of a linearly ordered field `K` (the rationals
  when a definition is evaluated, the reals when a statement speaks of angles).
  The library functions `sin`, `cos` and the constant `M_PI` are a parameter
  (`Libm`).
* A heap block is a list of cells.  An access outside the block, or a failed
  `assert`, has no result: the operation returns `none`.
-/

namespace Donut

/-- Number of values of an `unsigned int`. -/
def UINT_MOD : Nat := 2 ^ 32

/-! ## Fb -/

/-- The class `Fb`: the public fields and the heap block `buf`. -/
structure Fb where
  width : Nat
  height : Nat
  buf : List Char
deriving DecidableEq

/-- The block `malloc(width * height)` as `memset(buf, c, width * height)`
leaves it; the product is an `unsigned int` product. -/
def Fb.cells (width height : Nat) : Nat := (width * height) % UINT_MOD

/-- `Fb::clear`: `memset(buf, ' ', width * height)` overwrites the first
`width * height` (as `unsigned int`) cells of the block. -/
def Fb.clear (fb : Fb) : Fb :=
  { fb with buf := List.replicate (Fb.cells fb.width fb.height) ' ' ++
                   fb.buf.drop (Fb.cells fb.width fb.height) }

/-- `Fb::Fb` when `malloc` succeeds: a block of `width * height` bytes
(an `unsigned int` product), then `clear()`. The `std::bad_alloc` exit, which
leaves no object, is not part of the model. -/
def Fb.create (width height : Nat) : Fb :=
  Fb.clear { width := width, height := height,
             buf := List.replicate (Fb.cells width height) (Char.ofNat 0) }

/-- `Fb::get`: the assertion, then `buf[y * width + x]`. -/
def Fb.get (fb : Fb) (x y : Nat) : Option Char :=
  if x < fb.width ∧ y < fb.height then
    fb.buf[(y * fb.width + x) % UINT_MOD]?
  else none

/-- `Fb::set`: the assertion, then `buf[y * width + x] = c`. -/
def Fb.set (fb : Fb) (c : Char) (x y : Nat) : Option Fb :=
  if x < fb.width ∧ y < fb.height then
    if (y * fb.width + x) % UINT_MOD < fb.buf.length then
      some { fb with buf := fb.buf.set ((y * fb.width + x) % UINT_MOD) c }
    else none
  else none

/-- A framebuffer is a `width × height` grid: the fields are `unsigned int`
values, the block holds exactly `width * height` cells and that product did
not wrap. -/
def Fb.WF (fb : Fb) : Prop :=
  fb.width < UINT_MOD ∧ fb.height < UINT_MOD ∧
  fb.width * fb.height < UINT_MOD ∧ fb.buf.length = fb.width * fb.height

/-! ## ZBuf -/

/-- The class `ZBuf`: the public fields and the heap block `buf`. -/
structure ZBuf (K : Type) where
  width : Nat
  height : Nat
  buf : List K

/-- `ZBuf::clear`: `memset(buf, 0, width * height * sizeof(float))` zeroes the
first `width * height` (as `unsigned int`) cells of the block. -/
def ZBuf.clear {K : Type} [Zero K] (zb : ZBuf K) : ZBuf K :=
  { zb with buf := List.replicate (Fb.cells zb.width zb.height) (0 : K) ++
                   zb.buf.drop (Fb.cells zb.width zb.height) }

/-- `ZBuf::ZBuf` when `malloc` succeeds; `junk` is what the fresh block
holds before `clear()`. -/
def ZBuf.create {K : Type} [Zero K] (junk : K) (width height : Nat) : ZBuf K :=
  ZBuf.clear { width := width, height := height,
               buf := List.replicate (Fb.cells width height) junk }

/-- `ZBuf::get`: the assertion, then `buf[y * width + x]`. -/
def ZBuf.get {K : Type} (zb : ZBuf K) (x y : Nat) : Option K :=
  if x < zb.width ∧ y < zb.height then
    zb.buf[(y * zb.width + x) % UINT_MOD]?
  else none

/-- `ZBuf::set`: the assertion, then the depth test `v > get(x, y)`; the
result pairs the returned `bool` with the buffer after the call. -/
def ZBuf.set {K : Type} [LinearOrder K] (zb : ZBuf K) (v : K) (x y : Nat) :
    Option (Bool × ZBuf K) :=
  if x < zb.width ∧ y < zb.height then
    match zb.get x y with
    | none => none
    | some old =>
      if v > old then
        some (true, { zb with buf := zb.buf.set ((y * zb.width + x) % UINT_MOD) v })
      else some (false, zb)
  else none

/-- A depth buffer is a `width × height` grid: the fields are `unsigned int`
values, the block holds exactly `width * height` cells and that product did
not wrap. -/
def ZBuf.WF {K : Type} (zb : ZBuf K) : Prop :=
  zb.width < UINT_MOD ∧ zb.height < UINT_MOD ∧
  zb.width * zb.height < UINT_MOD ∧ zb.buf.length = zb.width * zb.height

/-- What `draw_torus` takes from `<cmath>`. -/
structure Libm (K : Type) where
  sin : K → K
  cos : K → K
  M_PI : K

section Field

variable {K : Type} [LinearOrderedField K] [FloorRing K]

/-- Conversion of a `float` to `int`: truncation toward zero. -/
def f2i (v : K) : Int := if 0 ≤ v then ⌊v⌋ else ⌈v⌉

/-- The values an `int` can hold. -/
def in_int (i : Int) : Prop := -(2 : Int) ^ 31 ≤ i ∧ i < (2 : Int) ^ 31

instance (i : Int) : Decidable (in_int i) := by unfold in_int; infer_instance

/-- Conversion of an `int` argument to an `unsigned int` parameter. -/
def to_unsigned (i : Int) : Nat := (i % (2 : Int) ^ 32).toNat

/-- The `unsigned int` expression `8 * (r1 + r2)`. -/
def mult_den (r1 r2 : Nat) : Nat := (8 * ((r1 + r2) % UINT_MOD)) % UINT_MOD

/-- The local variables of one iteration of the inner loop of `draw_torus`. -/
structure Sample (K : Type) where
  mult_x : K
  mult_y : K
  circle_x : K
  circle_y : K
  torus_x : K
  torus_y : K
  torus_z : K
  torus_x2 : K
  torus_y2 : K
  torus_z2 : K
  torus_x3 : K
  torus_y3 : K
  torus_z3 : K
  ooz : K
  screen_x : Int
  screen_y : Int
  n_x1 : K
  n_y1 : K
  n_z1 : K
  n_x2 : K
  n_y2 : K
  n_z2 : K
  n_y3 : K
  n_z3 : K
  luminance : K

/-- The arithmetic of `draw_torus` for the angles `theta`, `phi`, on a
framebuffer of the given width and height. -/
def sample (T : Libm K) (width height r1 r2 : Nat) (z_offset rot_x rot_z theta phi : K) :
    Sample K :=
  let sin_a := T.sin rot_x
  let cos_a := T.cos rot_x
  let sin_b := T.sin rot_z
  let cos_b := T.cos rot_z
  let mult_x : K := (width : K) * z_offset * 3 / ((mult_den r1 r2 : Nat) : K)
  let mult_y : K := (height : K) * z_offset * 3 / ((mult_den r1 r2 : Nat) : K)
  let cos_theta := T.cos theta
  let sin_theta := T.sin theta
  let sin_phi := T.sin phi
  let cos_phi := T.cos phi
  let circle_x : K := (r1 : K) + (r2 : K) * cos_phi
  let circle_y : K := (r2 : K) * sin_phi
  let torus_x := circle_x * cos_theta
  let torus_y := circle_y
  let torus_z := circle_x * -sin_theta
  let torus_x2 := torus_x
  let torus_y2 := torus_y * cos_a + torus_z * sin_a
  let torus_z2 := torus_z * cos_a - torus_y * sin_a
  let torus_x3 := torus_x2 * cos_b + torus_y2 * sin_b
  let torus_y3 := torus_x2 * -sin_b + torus_y2 * cos_b
  let torus_z3 := z_offset + torus_z2
  let ooz := 1 / torus_z3
  let screen_x := f2i ((width : K) / 2 + mult_x * ooz * torus_x3)
  let screen_y := f2i ((height : K) / 2 - mult_y * ooz * torus_y3)
  let n_x1 := cos_phi * cos_theta
  let n_y1 := sin_phi
  let n_z1 := -sin_theta * cos_phi
  let n_x2 := n_x1
  let n_y2 := n_y1 * cos_a + n_z1 * sin_a
  let n_z2 := -sin_a * n_y1 + n_z1 * cos_a
  let n_y3 := n_x2 * -sin_b + n_y2 * cos_b
  let n_z3 := n_z2
  let luminance := n_y3 - n_z3
  { mult_x := mult_x, mult_y := mult_y, circle_x := circle_x, circle_y := circle_y,
    torus_x := torus_x, torus_y := torus_y, torus_z := torus_z,
    torus_x2 := torus_x2, torus_y2 := torus_y2, torus_z2 := torus_z2,
    torus_x3 := torus_x3, torus_y3 := torus_y3, torus_z3 := torus_z3,
    ooz := ooz, screen_x := screen_x, screen_y := screen_y,
    n_x1 := n_x1, n_y1 := n_y1, n_z1 := n_z1,
    n_x2 := n_x2, n_y2 := n_y2, n_z2 := n_z2,
    n_y3 := n_y3, n_z3 := n_z3, luminance := luminance }

/-- The expression `luminance < 0 ? 0 : luminance * 8`, converted to `int`. -/
def luminance_index (luminance : K) : Int :=
  if luminance < 0 then 0 else f2i (luminance * 8)

/-- The twelve shading characters of the literal `".,-~:;=!*#$@"`. -/
def ramp : List Char := ['.', ',', '-', '~', ':', ';', '=', '!', '*', '#', '$', '@']

/-- The read `".,-~:;=!*#$@"[i]`: the literal is an array of thirteen `char`,
the twelve shading characters and the terminating zero. -/
def ramp_at (i : Int) : Option Char :=
  if 0 ≤ i then (ramp ++ [Char.ofNat 0])[i.toNat]? else none

/-- The depth test and the plot that end one iteration of the inner loop, for
the local variables `v`. There is no result when a `float` division has a zero
divisor (`zero_den` is the case of `mult_x`, `mult_y`), when a converted value
does not fit an `int`, or when an assertion or a read fails. -/
def plot (zero_den : Bool) (v : Sample K) (s : Fb × ZBuf K) : Option (Fb × ZBuf K) :=
  if zero_den = true ∨ v.torus_z3 = 0 then none
  else if ¬ (in_int v.screen_x ∧ in_int v.screen_y) then none
  else
    match s.2.set v.ooz (to_unsigned v.screen_x) (to_unsigned v.screen_y) with
    | none => none
    | some (false, zb) => some (s.1, zb)
    | some (true, zb) =>
      if ¬ in_int (luminance_index v.luminance) then none
      else
        match ramp_at (luminance_index v.luminance) with
        | none => none
        | some c =>
          match s.1.set c (to_unsigned v.screen_x) (to_unsigned v.screen_y) with
          | none => none
          | some fb => some (fb, zb)

/-- One iteration of the inner loop of `draw_torus`. -/
def draw_sample (T : Libm K) (r1 r2 : Nat) (z_offset rot_x rot_z theta phi : K)
    (s : Fb × ZBuf K) : Option (Fb × ZBuf K) :=
  plot (decide (mult_den r1 r2 = 0))
    (sample T s.1.width s.1.height r1 r2 z_offset rot_x rot_z theta phi) s

/-- The loop over `phi`, from the value `phi`; `fuel` bounds the number of
iterations, and there is no result when it runs out. -/
def phi_loop (T : Libm K) (r1 r2 : Nat) (z_offset angle_step_phi rot_x rot_z theta : K) :
    Nat → K → Fb × ZBuf K → Option (Fb × ZBuf K)
  | 0, _, _ => none
  | fuel + 1, phi, s =>
    if phi < 2 * T.M_PI then
      match draw_sample T r1 r2 z_offset rot_x rot_z theta phi s with
      | none => none
      | some s1 => phi_loop T r1 r2 z_offset angle_step_phi rot_x rot_z theta fuel
                     (phi + angle_step_phi) s1
    else some s

/-- The loop over `theta`, from the value `theta`; each loop may take `fuel`
iterations. -/
def theta_loop (T : Libm K) (r1 r2 : Nat)
    (z_offset angle_step_theta angle_step_phi rot_x rot_z : K) (fuel : Nat) :
    Nat → K → Fb × ZBuf K → Option (Fb × ZBuf K)
  | 0, _, _ => none
  | n + 1, theta, s =>
    if theta < 2 * T.M_PI then
      match phi_loop T r1 r2 z_offset angle_step_phi rot_x rot_z theta fuel 0 s with
      | none => none
      | some s1 => theta_loop T r1 r2 z_offset angle_step_theta angle_step_phi rot_x rot_z
                     fuel n (theta + angle_step_theta) s1
    else some s

/-- `draw_torus`: both buffers are cleared, then every sample is drawn. -/
def draw_torus (T : Libm K) (fuel : Nat) (fb : Fb) (zbuf : ZBuf K) (r1 r2 : Nat)
    (z_offset angle_step_theta angle_step_phi rot_x rot_z : K) : Option (Fb × ZBuf K) :=
  theta_loop T r1 r2 z_offset angle_step_theta angle_step_phi rot_x rot_z fuel fuel 0
    (fb.clear, zbuf.clear)

/-! ### The samples in loop order -/

/-- The values the loop variable of `for (a = a0; a < 2 * M_PI; a += step)`
takes, in order, within `fuel` iterations. -/
def angles (T : Libm K) (step : K) : Nat → K → List K
  | 0, _ => []
  | fuel + 1, a => if a < 2 * T.M_PI then a :: angles T step fuel (a + step) else []

/-- The local variables of all iterations of `draw_torus` in loop order:
`theta` in the outer loop, `phi` in the inner loop, both ascending from `0`. -/
def samples (T : Libm K) (fuel width height r1 r2 : Nat)
    (z_offset angle_step_theta angle_step_phi rot_x rot_z : K) : List (Sample K) :=
  (angles T angle_step_theta fuel 0).flatMap (fun theta =>
    (angles T angle_step_phi fuel 0).map (fun phi =>
      sample T width height r1 r2 z_offset rot_x rot_z theta phi))

/-- The cell a sample is plotted to: its screen coordinates as the
`unsigned int` arguments of `set`. -/
def Sample.cell (v : Sample K) : Nat × Nat :=
  (to_unsigned v.screen_x, to_unsigned v.screen_y)

/-- The depth test and plot of `plot`, for a list of samples in order. -/
def plot_all (zero_den : Bool) : List (Sample K) → Fb × ZBuf K → Option (Fb × ZBuf K)
  | [], s => some s
  | v :: vs, s =>
    match plot zero_den v s with
    | none => none
    | some s1 => plot_all zero_den vs s1

/-- The depth `d` and the character `c` that visibility resolution gives the
cell `(x, y)` for the samples `S`: zero and blank when no sample maps to the
cell; otherwise the depth and shading character of the sample `s` that is
deeper than every earlier sample of the cell and at least as deep as every
later one, that is, of the earliest sample of maximal `ooz`. -/
def Resolved (S : List (Sample K)) (x y : Nat) (d : K) (c : Char) : Prop :=
  ((∀ v ∈ S, v.cell ≠ (x, y)) ∧ d = 0 ∧ c = ' ') ∨
  (∃ pre s post, S = pre ++ s :: post ∧ s.cell = (x, y) ∧
    (∀ t ∈ pre, t.cell = (x, y) → t.ooz < s.ooz) ∧
    (∀ t ∈ post, t.cell = (x, y) → t.ooz ≤ s.ooz) ∧
    d = s.ooz ∧ ramp_at (luminance_index s.luminance) = some c)

/-! ### The rotation of a point -/

/-- The linear part of what `draw_torus` does to a surface point: the rotation
about the x axis by `rot_x` (`torus_x2`, `torus_y2`, `torus_z2`), then the
rotation about the z axis by `rot_z` (`torus_x3`, `torus_y3`); the camera
offset added to the third coordinate in `torus_z3` is left out. -/
def rotate (sin_a cos_a sin_b cos_b : K) (p : K × K × K) : K × K × K :=
  (p.1 * cos_b + (p.2.1 * cos_a + p.2.2 * sin_a) * sin_b,
   p.1 * -sin_b + (p.2.1 * cos_a + p.2.2 * sin_a) * cos_b,
   p.2.2 * cos_a - p.2.1 * sin_a)

/-! ### main -/

/-- `const unsigned int screen_width = 50`. -/
def main.screen_width : Nat := 50

/-- `const unsigned int screen_height = 25`. -/
def main.screen_height : Nat := 25

/-- `const int r1 = 2`, passed for the `unsigned int` parameter `r1`. -/
def main.r1 : Nat := 2

/-- `const int r2 = 1`, passed for the `unsigned int` parameter `r2`. -/
def main.r2 : Nat := 1

/-- `const float z_offset = 5`. -/
def main.z_offset (K : Type) [LinearOrderedField K] : K := 5

/-- The call `draw_torus(fb, zbuf, r1, r2, z_offset, 0.02, 0.02, rot * 2, rot)`
of the loop of `main`, for the rotation `rot`. -/
def main.draw (T : Libm K) (fuel : Nat) (fb : Fb) (zbuf : ZBuf K) (rot : K) :
    Option (Fb × ZBuf K) :=
  draw_torus T fuel fb zbuf main.r1 main.r2 (main.z_offset K) (1 / 50) (1 / 50) (rot * 2) rot

end Field

/-! ## Theorems -/

/-! ## Row-major indexing -/

theorem index_lt {w h x y : Nat} (hx : x < w) (hy : y < h) : y * w + x < w * h := by
  have h1 : (y + 1) * w ≤ h * w := Nat.mul_le_mul_right w hy
  have h2 : (y + 1) * w = y * w + w := by ring
  have h3 : h * w = w * h := Nat.mul_comm h w
  omega

theorem index_mod {w h x y : Nat} (hwh : w * h < UINT_MOD) (hx : x < w) (hy : y < h) :
    (y * w + x) % UINT_MOD = y * w + x :=
  Nat.mod_eq_of_lt (lt_trans (index_lt hx hy) hwh)

theorem index_inj {w x y x' y' : Nat} (hx : x < w) (hx' : x' < w)
    (h : y * w + x = y' * w + x') : x = x' ∧ y = y' := by
  have hw : 0 < w := by omega
  have e1 : (y * w + x) % w = x := by
    rw [Nat.add_comm, Nat.add_mul_mod_self_right]; exact Nat.mod_eq_of_lt hx
  have e2 : (y' * w + x') % w = x' := by
    rw [Nat.add_comm, Nat.add_mul_mod_self_right]; exact Nat.mod_eq_of_lt hx'
  have hxx : x = x' := by rw [← e1, ← e2, h]
  subst hxx
  have : y * w = y' * w := by omega
  exact ⟨rfl, Nat.eq_of_mul_eq_mul_right hw this⟩

/-! ## ZBuf: get and set -/

section ZBufLemmas

variable {K : Type}

theorem zbuf_get_of_WF (zb : ZBuf K) (hwf : zb.WF) {x y : Nat}
    (hx : x < zb.width) (hy : y < zb.height) :
    ∃ old, zb.get x y = some old ∧ zb.buf[y * zb.width + x]? = some old := by
  obtain ⟨_, _, hwh, hlen⟩ := hwf
  have hi : y * zb.width + x < zb.buf.length := hlen ▸ index_lt hx hy
  refine ⟨zb.buf[y * zb.width + x], ?_, List.getElem?_eq_getElem hi⟩
  simp only [ZBuf.get, hx, hy, and_self, if_true, index_mod hwh hx hy]
  exact List.getElem?_eq_getElem hi

theorem zbuf_set_eq (zb : ZBuf K) [LinearOrder K] (hwf : zb.WF) {x y : Nat}
    (hx : x < zb.width) (hy : y < zb.height) (v old : K) (hold : zb.get x y = some old) :
    zb.set v x y =
      if old < v then some (true, { zb with buf := zb.buf.set (y * zb.width + x) v })
      else some (false, zb) := by
  obtain ⟨_, _, hwh, _⟩ := hwf
  simp only [ZBuf.set, hx, hy, and_self, if_true, hold, index_mod hwh hx hy, gt_iff_lt]

theorem zbuf_WF_set_buf (zb : ZBuf K) (hwf : zb.WF) (i : Nat) (v : K) :
    ZBuf.WF { zb with buf := zb.buf.set i v } := by
  obtain ⟨h1, h2, h3, h4⟩ := hwf
  exact ⟨h1, h2, h3, by simpa using h4⟩

theorem zbuf_get_set_buf_same (zb : ZBuf K) (hwf : zb.WF) {x y : Nat}
    (hx : x < zb.width) (hy : y < zb.height) (v : K) :
    ZBuf.get { zb with buf := zb.buf.set (y * zb.width + x) v } x y = some v := by
  obtain ⟨_, _, hwh, hlen⟩ := hwf
  have hi : y * zb.width + x < zb.buf.length := hlen ▸ index_lt hx hy
  simp only [ZBuf.get, hx, hy, and_self, if_true, index_mod hwh hx hy]
  simp [List.getElem?_set, hi]

/-- What a call of `set` does on a grid, in terms of the value `old` the cell
held: the returned value, and the buffer, its dimensions and its cell after
the call. -/
theorem zbuf_set_spec [LinearOrder K] (zb : ZBuf K) (hwf : zb.WF) {x y : Nat}
    (hx : x < zb.width) (hy : y < zb.height) (v old : K) (hold : zb.get x y = some old) :
    ∃ zb1, zb.set v x y = some (decide (old < v), zb1) ∧ zb1.WF ∧
      zb1.width = zb.width ∧ zb1.height = zb.height ∧
      zb1.get x y = some (max old v) := by
  rw [zbuf_set_eq zb hwf hx hy v old hold]
  by_cases h : old < v
  · refine ⟨{ zb with buf := zb.buf.set (y * zb.width + x) v }, by simp [h],
      zbuf_WF_set_buf zb hwf _ v, rfl, rfl, ?_⟩
    rw [zbuf_get_set_buf_same zb hwf hx hy v, max_eq_right (le_of_lt h)]
  · refine ⟨zb, by simp [h], hwf, rfl, rfl, ?_⟩
    rw [hold, max_eq_left (not_lt.mp h)]

end ZBufLemmas

/-! ## Frame lemmas for set -/

theorem zbuf_set_in_bounds {K : Type} [LinearOrder K] (zb : ZBuf K) (v : K) (x y : Nat)
    (r : Bool × ZBuf K) (h : zb.set v x y = some r) : x < zb.width ∧ y < zb.height := by
  by_contra hc
  simp [ZBuf.set, hc] at h

theorem zbuf_set_frame {K : Type} [LinearOrder K] (zb : ZBuf K) (hwf : zb.WF) (v : K)
    {x y : Nat} (b : Bool) (zb1 : ZBuf K) (h : zb.set v x y = some (b, zb1))
    (x1 y1 : Nat) (hne : (x1, y1) ≠ (x, y)) : zb1.get x1 y1 = zb.get x1 y1 := by
  obtain ⟨hx, hy⟩ := zbuf_set_in_bounds zb v x y _ h
  obtain ⟨old, hold, _⟩ := zbuf_get_of_WF zb hwf hx hy
  rw [zbuf_set_eq zb hwf hx hy v old hold] at h
  by_cases hlt : old < v
  · rw [if_pos hlt] at h
    obtain ⟨_, rfl⟩ := Prod.mk.inj (Option.some.inj h)
    by_cases hb : x1 < zb.width ∧ y1 < zb.height
    · have hi : y * zb.width + x ≠ y1 * zb.width + x1 := by
        intro e
        obtain ⟨e1, e2⟩ := index_inj hx hb.1 e
        exact hne (by rw [e1, e2])
      simp only [ZBuf.get, hb, and_self, if_true, index_mod hwf.2.2.1 hb.1 hb.2]
      exact List.getElem?_set_ne hi
    · simp only [ZBuf.get, hb, if_false]
  · rw [if_neg hlt] at h
    obtain ⟨_, rfl⟩ := Prod.mk.inj (Option.some.inj h)
    rfl

theorem fb_set_spec (fb : Fb) (hwf : fb.WF) (c : Char) (x y : Nat) (fb1 : Fb)
    (h : fb.set c x y = some fb1) :
    (x < fb.width ∧ y < fb.height) ∧ fb1.WF ∧ fb1.width = fb.width ∧
      fb1.height = fb.height ∧ fb1.get x y = some c ∧
      ∀ x1 y1, (x1, y1) ≠ (x, y) → fb1.get x1 y1 = fb.get x1 y1 := by
  have hb : x < fb.width ∧ y < fb.height := by
    by_contra hc
    simp [Fb.set, hc] at h
  obtain ⟨hw, hh, hwh, hlen⟩ := hwf
  have hm := index_mod hwh hb.1 hb.2
  have hi : y * fb.width + x < fb.buf.length := hlen ▸ index_lt hb.1 hb.2
  simp only [Fb.set, hb, and_self, if_true, hm, hi] at h
  obtain rfl := Option.some.inj h
  refine ⟨hb, ⟨hw, hh, hwh, by simpa using hlen⟩, rfl, rfl, ?_, ?_⟩
  · simp only [Fb.get, hb, and_self, if_true, hm]
    simp [List.getElem?_set, hi]
  · intro x1 y1 hne
    by_cases hb1 : x1 < fb.width ∧ y1 < fb.height
    · have hi1 : y * fb.width + x ≠ y1 * fb.width + x1 := by
        intro e
        obtain ⟨e1, e2⟩ := index_inj hb.1 hb1.1 e
        exact hne (by rw [e1, e2])
      simp only [Fb.get, hb1, and_self, if_true, index_mod hwh hb1.1 hb1.2]
      exact List.getElem?_set_ne hi1
    · simp only [Fb.get, hb1, if_false]

/-! ## Fb: get, set and print_fb -/

section Luminance

variable {K : Type} [LinearOrderedField K] [FloorRing K]

theorem luminance_index_of_nonneg (l : K) (h : 0 ≤ l) : luminance_index l = ⌊l * 8⌋ := by
  have h8 : 0 ≤ l * 8 := by positivity
  simp [luminance_index, f2i, not_lt.mpr h, h8]

theorem luminance_index_of_nonpos (l : K) (h : l ≤ 0) : luminance_index l = 0 := by
  rcases lt_or_eq_of_le h with h | rfl
  · simp [luminance_index, h]
  · simp [luminance_index, f2i]

theorem luminance_index_nonneg (l : K) : 0 ≤ luminance_index l := by
  rcases lt_or_le l 0 with h | h
  · rw [luminance_index_of_nonpos l h.le]
  · rw [luminance_index_of_nonneg l h]; exact Int.floor_nonneg.mpr (by positivity)

theorem luminance_index_le_eleven (l : K) (h : l < 3 / 2) : luminance_index l ≤ 11 := by
  rcases lt_or_le l 0 with h0 | h0
  · rw [luminance_index_of_nonpos l h0.le]; norm_num
  · rw [luminance_index_of_nonneg l h0]
    have : ⌊l * 8⌋ < 12 := Int.floor_lt.mpr (by push_cast; linarith)
    omega

theorem ramp_at_of_lt_twelve (i : Nat) (h : i < 12) : ramp_at (i : Int) = ramp[i]? := by
  have hl : i < ramp.length := by simpa [ramp] using h
  simp only [ramp_at, Int.natCast_nonneg, if_true, Int.toNat_natCast]
  exact List.getElem?_append_left hl

end Luminance

/-! ## Geometry of one sample -/

section Geometry

variable {K : Type} [LinearOrderedField K]

theorem rotated_depth_ge (r1 r2 cφ sφ cθ sθ ca sa : K) (hr1 : 0 ≤ r1) (hr2 : 0 ≤ r2)
    (hφ : sφ ^ 2 + cφ ^ 2 = 1) (hθ : sθ ^ 2 + cθ ^ 2 = 1) (ha : sa ^ 2 + ca ^ 2 = 1) :
    -(r1 + r2) ≤ (r1 + r2 * cφ) * -sθ * ca - r2 * sφ * sa := by
  have hu : sθ * ca ≤ 1 := by nlinarith [sq_nonneg (sθ - ca), sq_nonneg cθ, sq_nonneg sa]
  have hp : cφ * (sθ * ca) + sφ * sa ≤ 1 := by
    nlinarith [sq_nonneg (cφ - sθ * ca), sq_nonneg (sφ - sa), sq_nonneg (ca * cθ)]
  nlinarith [mul_nonneg hr1 (sub_nonneg.mpr hu), mul_nonneg hr2 (sub_nonneg.mpr hp)]

theorem rotated_norm_sq_le (r1 r2 cφ sφ cθ sθ ca sa cb sb : K) (hr1 : 0 ≤ r1) (hr2 : 0 ≤ r2)
    (hφ : sφ ^ 2 + cφ ^ 2 = 1) (hθ : sθ ^ 2 + cθ ^ 2 = 1) (ha : sa ^ 2 + ca ^ 2 = 1)
    (hb : sb ^ 2 + cb ^ 2 = 1) :
    ((r1 + r2 * cφ) * cθ * cb + (r2 * sφ * ca + (r1 + r2 * cφ) * -sθ * sa) * sb) ^ 2 +
    ((r1 + r2 * cφ) * cθ * -sb + (r2 * sφ * ca + (r1 + r2 * cφ) * -sθ * sa) * cb) ^ 2 +
    ((r1 + r2 * cφ) * -sθ * ca - r2 * sφ * sa) ^ 2 ≤ (r1 + r2) ^ 2 := by
  have e : ((r1 + r2 * cφ) * cθ * cb + (r2 * sφ * ca + (r1 + r2 * cφ) * -sθ * sa) * sb) ^ 2 +
      ((r1 + r2 * cφ) * cθ * -sb + (r2 * sφ * ca + (r1 + r2 * cφ) * -sθ * sa) * cb) ^ 2 +
      ((r1 + r2 * cφ) * -sθ * ca - r2 * sφ * sa) ^ 2 =
      r1 ^ 2 + 2 * r1 * r2 * cφ + r2 ^ 2 := by
    linear_combination
      ((r1 + r2 * cφ) ^ 2 * cθ ^ 2 + (r2 * sφ * ca + (r1 + r2 * cφ) * -sθ * sa) ^ 2) * hb +
      ((r2 * sφ) ^ 2 + ((r1 + r2 * cφ) * sθ) ^ 2) * ha + (r1 + r2 * cφ) ^ 2 * hθ +
      r2 ^ 2 * hφ
  rw [e]
  have hc : cφ ≤ 1 := by nlinarith [sq_nonneg sφ, sq_nonneg (cφ - 1)]
  nlinarith [mul_nonneg (mul_nonneg hr1 hr2) (sub_nonneg.mpr hc)]

theorem projected_sq_le (x y z R d : K) (hR : 0 ≤ R) (hd : R < d)
    (h : x ^ 2 + y ^ 2 + z ^ 2 ≤ R ^ 2) :
    (x / (d + z)) ^ 2 * (d ^ 2 - R ^ 2) ≤ R ^ 2 := by
  have hz : -R ≤ z := by
    nlinarith [sq_nonneg x, sq_nonneg y, sq_nonneg (z + R), sq_nonneg (z - R)]
  have hpos : 0 < d + z := by linarith
  have hdR : 0 ≤ d ^ 2 - R ^ 2 := by nlinarith
  rw [div_pow, div_mul_eq_mul_div, div_le_iff₀ (by positivity)]
  nlinarith [sq_nonneg (d * z + R ^ 2), mul_nonneg (sq_nonneg y) hdR,
    mul_nonneg (sub_nonneg.mpr h) hdR]

theorem abs_le_of_scaled_sq_le (q : K) (h : q ^ 2 * 16 ≤ 9) : -(3 / 4) ≤ q ∧ q ≤ 3 / 4 := by
  constructor <;> nlinarith [sq_nonneg (q - 3 / 4), sq_nonneg (q + 3 / 4)]

theorem lt_of_sq_le_two (x : K) (h : x ^ 2 ≤ 2) : x < 3 / 2 := by
  by_contra hc
  have hc1 : 3 / 2 ≤ x := not_lt.mp hc
  nlinarith [mul_self_le_mul_self (by norm_num : (0 : K) ≤ 3 / 2) hc1]

theorem normal_sq_le_one (cφ sφ cθ sθ ca sa cb sb : K)
    (hφ : sφ ^ 2 + cφ ^ 2 = 1) (hθ : sθ ^ 2 + cθ ^ 2 = 1) (ha : sa ^ 2 + ca ^ 2 = 1)
    (hb : sb ^ 2 + cb ^ 2 = 1) :
    (cφ * cθ * -sb + (sφ * ca + -sθ * cφ * sa) * cb) ^ 2 +
      (-sa * sφ + -sθ * cφ * ca) ^ 2 ≤ 1 := by
  have e : (cφ * cθ * cb + (sφ * ca + -sθ * cφ * sa) * sb) ^ 2 +
      (cφ * cθ * -sb + (sφ * ca + -sθ * cφ * sa) * cb) ^ 2 +
      (-sa * sφ + -sθ * cφ * ca) ^ 2 = 1 := by
    linear_combination
      ((cφ * cθ) ^ 2 + (sφ * ca + -sθ * cφ * sa) ^ 2) * hb +
      (sφ ^ 2 + (sθ * cφ) ^ 2) * ha + cφ ^ 2 * hθ + hφ
  nlinarith [sq_nonneg (cφ * cθ * cb + (sφ * ca + -sθ * cφ * sa) * sb)]

variable [FloorRing K]

theorem sample_torus_z3_ge (T : Libm K) (hT : ∀ t, T.sin t ^ 2 + T.cos t ^ 2 = 1)
    (width height r1 r2 : Nat) (z_offset rot_x rot_z theta phi : K) :
    z_offset - ((r1 : K) + (r2 : K)) ≤
      (sample T width height r1 r2 z_offset rot_x rot_z theta phi).torus_z3 := by
  have h := rotated_depth_ge (r1 : K) (r2 : K) (T.cos phi) (T.sin phi) (T.cos theta)
    (T.sin theta) (T.cos rot_x) (T.sin rot_x) (Nat.cast_nonneg r1) (Nat.cast_nonneg r2)
    (hT phi) (hT theta) (hT rot_x)
  show z_offset - ((r1 : K) + (r2 : K)) ≤
    z_offset + (((r1 : K) + (r2 : K) * T.cos phi) * -T.sin theta * T.cos rot_x -
      (r2 : K) * T.sin phi * T.sin rot_x)
  linarith

theorem sample_ooz_pos (T : Libm K) (hT : ∀ t, T.sin t ^ 2 + T.cos t ^ 2 = 1)
    (width height r1 r2 : Nat) (z_offset rot_x rot_z theta phi : K)
    (hz : (r1 : K) + (r2 : K) < z_offset) :
    0 < (sample T width height r1 r2 z_offset rot_x rot_z theta phi).torus_z3 ∧
    0 < (sample T width height r1 r2 z_offset rot_x rot_z theta phi).ooz := by
  have h := sample_torus_z3_ge T hT width height r1 r2 z_offset rot_x rot_z theta phi
  have hpos : 0 < (sample T width height r1 r2 z_offset rot_x rot_z theta phi).torus_z3 := by
    linarith
  exact ⟨hpos, one_div_pos.mpr hpos⟩

theorem f2i_bounds (v : K) (lo hi : Int) (hlo : 0 ≤ lo) (h1 : (lo : K) ≤ v)
    (h2 : v < (hi : K) + 1) : lo ≤ f2i v ∧ f2i v ≤ hi := by
  have h0 : (0 : K) ≤ v := le_trans (by exact_mod_cast hlo) h1
  have hlt : ⌊v⌋ < hi + 1 := Int.floor_lt.mpr (by push_cast; exact h2)
  simp only [f2i, h0, if_true]
  exact ⟨Int.le_floor.mpr h1, by omega⟩

theorem to_unsigned_of_nonneg (i : Int) (h0 : 0 ≤ i) (h1 : i < (2 : Int) ^ 32) :
    to_unsigned i = i.toNat := by
  unfold to_unsigned
  rw [Int.emod_eq_of_lt h0 h1]

/-- With the constants of `main`, the projected coordinates before conversion
lie well inside the `50 × 25` screen. -/
theorem main_screen_bounds (T : Libm K) (hT : ∀ t, T.sin t ^ 2 + T.cos t ^ 2 = 1)
    (rot_x rot_z theta phi : K) :
    1 ≤ (sample T 50 25 2 1 5 rot_x rot_z theta phi).screen_x ∧
    (sample T 50 25 2 1 5 rot_x rot_z theta phi).screen_x ≤ 48 ∧
    0 ≤ (sample T 50 25 2 1 5 rot_x rot_z theta phi).screen_y ∧
    (sample T 50 25 2 1 5 rot_x rot_z theta phi).screen_y ≤ 24 := by
  have hn := rotated_norm_sq_le ((2 : Nat) : K) ((1 : Nat) : K) (T.cos phi) (T.sin phi)
    (T.cos theta) (T.sin theta) (T.cos rot_x) (T.sin rot_x) (T.cos rot_z) (T.sin rot_z)
    (Nat.cast_nonneg 2) (Nat.cast_nonneg 1) (hT phi) (hT theta) (hT rot_x) (hT rot_z)
  set x3 : K := (((2 : Nat) : K) + ((1 : Nat) : K) * T.cos phi) * T.cos theta * T.cos rot_z +
    (((1 : Nat) : K) * T.sin phi * T.cos rot_x +
      (((2 : Nat) : K) + ((1 : Nat) : K) * T.cos phi) * -T.sin theta * T.sin rot_x) *
      T.sin rot_z with hx3
  set y3 : K := (((2 : Nat) : K) + ((1 : Nat) : K) * T.cos phi) * T.cos theta * -T.sin rot_z +
    (((1 : Nat) : K) * T.sin phi * T.cos rot_x +
      (((2 : Nat) : K) + ((1 : Nat) : K) * T.cos phi) * -T.sin theta * T.sin rot_x) *
      T.cos rot_z with hy3
  set z2 : K := (((2 : Nat) : K) + ((1 : Nat) : K) * T.cos phi) * -T.sin theta * T.cos rot_x -
    ((1 : Nat) : K) * T.sin phi * T.sin rot_x with hz2
  have hR : (((2 : Nat) : K) + ((1 : Nat) : K)) = 3 := by norm_num
  rw [hR] at hn
  have hqx := projected_sq_le x3 y3 z2 3 5 (by norm_num) (by norm_num) hn
  have hqy := projected_sq_le y3 x3 z2 3 5 (by norm_num) (by norm_num) (by linarith)
  have hqx1 := abs_le_of_scaled_sq_le (x3 / (5 + z2)) (by linarith)
  have hqy1 := abs_le_of_scaled_sq_le (y3 / (5 + z2)) (by linarith)
  have hden : ((mult_den 2 1 : Nat) : K) = 24 := by
    have : mult_den 2 1 = 24 := by decide
    rw [this]; norm_num
  have ex : (sample T 50 25 2 1 5 rot_x rot_z theta phi).screen_x =
      f2i (25 + 125 / 4 * (x3 / (5 + z2))) := by
    show f2i (((50 : Nat) : K) / 2 + ((50 : Nat) : K) * 5 * 3 / ((mult_den 2 1 : Nat) : K) *
      (1 / (5 + z2)) * x3) = _
    rw [hden]; congr 1; push_cast; ring
  have ey : (sample T 50 25 2 1 5 rot_x rot_z theta phi).screen_y =
      f2i (25 / 2 - 125 / 8 * (y3 / (5 + z2))) := by
    show f2i (((25 : Nat) : K) / 2 - ((25 : Nat) : K) * 5 * 3 / ((mult_den 2 1 : Nat) : K) *
      (1 / (5 + z2)) * y3) = _
    rw [hden]; congr 1; push_cast; ring
  rw [ex, ey]
  have bx := f2i_bounds (25 + 125 / 4 * (x3 / (5 + z2))) 1 48 (by norm_num)
    (by push_cast; linarith [hqx1.1]) (by push_cast; linarith [hqx1.2])
  have by1 := f2i_bounds (25 / 2 - 125 / 8 * (y3 / (5 + z2))) 0 24 (by norm_num)
    (by push_cast; linarith [hqy1.2]) (by push_cast; linarith [hqy1.1])
  exact ⟨bx.1, bx.2, by1.1, by1.2⟩

/-- The luminance of a sample is the difference of two coordinates of a unit
vector: its square is at most `2`, so it is below `3/2`. -/
theorem sample_luminance_sq_le (T : Libm K) (hT : ∀ t, T.sin t ^ 2 + T.cos t ^ 2 = 1)
    (width height r1 r2 : Nat) (z_offset rot_x rot_z theta phi : K) :
    (sample T width height r1 r2 z_offset rot_x rot_z theta phi).luminance ^ 2 ≤ 2 ∧
    (sample T width height r1 r2 z_offset rot_x rot_z theta phi).luminance < 3 / 2 := by
  have h := normal_sq_le_one (T.cos phi) (T.sin phi) (T.cos theta) (T.sin theta)
    (T.cos rot_x) (T.sin rot_x) (T.cos rot_z) (T.sin rot_z) (hT phi) (hT theta) (hT rot_x)
    (hT rot_z)
  have e : (sample T width height r1 r2 z_offset rot_x rot_z theta phi).luminance =
      (T.cos phi * T.cos theta * -T.sin rot_z +
        (T.sin phi * T.cos rot_x + -T.sin theta * T.cos phi * T.sin rot_x) * T.cos rot_z) -
      (-T.sin rot_x * T.sin phi + -T.sin theta * T.cos phi * T.cos rot_x) := rfl
  rw [e]
  set a := T.cos phi * T.cos theta * -T.sin rot_z +
    (T.sin phi * T.cos rot_x + -T.sin theta * T.cos phi * T.sin rot_x) * T.cos rot_z
  set b := -T.sin rot_x * T.sin phi + -T.sin theta * T.cos phi * T.cos rot_x
  have h2 : (a - b) ^ 2 ≤ 2 := by nlinarith [sq_nonneg (a + b)]
  exact ⟨h2, lt_of_sq_le_two (a - b) h2⟩

theorem sample_luminance_index_le (T : Libm K) (hT : ∀ t, T.sin t ^ 2 + T.cos t ^ 2 = 1)
    (width height r1 r2 : Nat) (z_offset rot_x rot_z theta phi : K) :
    0 ≤ luminance_index
      (sample T width height r1 r2 z_offset rot_x rot_z theta phi).luminance ∧
    luminance_index
      (sample T width height r1 r2 z_offset rot_x rot_z theta phi).luminance ≤ 11 :=
  ⟨luminance_index_nonneg _, luminance_index_le_eleven _
    (sample_luminance_sq_le T hT width height r1 r2 z_offset rot_x rot_z theta phi).2⟩

theorem ramp_at_some_of_le_eleven (i : Int) (h0 : 0 ≤ i) (h1 : i ≤ 11) :
    ∃ c, ramp_at i = some c ∧ ramp[i.toNat]? = some c ∧ c ∈ ramp := by
  obtain ⟨n, rfl⟩ := Int.eq_ofNat_of_zero_le h0
  have hn : n < 12 := by omega
  have hl : n < ramp.length := by simpa [ramp] using hn
  refine ⟨ramp[n], ?_, ?_, List.getElem_mem hl⟩
  · rw [ramp_at_of_lt_twelve n hn]; exact List.getElem?_eq_getElem hl
  · simp only [Int.toNat_ofNat]; exact List.getElem?_eq_getElem hl

end Geometry

/-! ## Blocks of wrapped size -/

theorem fb_get_outside_block (fb : Fb) {x y : Nat}
    (h : fb.buf.length ≤ (y * fb.width + x) % UINT_MOD) : fb.get x y = none := by
  unfold Fb.get
  split
  · exact List.getElem?_eq_none h
  · rfl

theorem zbuf_get_outside_block {K : Type} (zb : ZBuf K) {x y : Nat}
    (h : zb.buf.length ≤ (y * zb.width + x) % UINT_MOD) : zb.get x y = none := by
  unfold ZBuf.get
  split
  · exact List.getElem?_eq_none h
  · rfl

theorem fb_create_length (w h : Nat) : (Fb.create w h).buf.length = Fb.cells w h := by
  simp [Fb.create, Fb.clear]

theorem fb_clear_create_length (w h : Nat) :
    (Fb.create w h).clear.buf.length = Fb.cells w h := by
  simp [Fb.create, Fb.clear]

theorem zbuf_create_length {K : Type} [Zero K] (junk : K) (w h : Nat) :
    (ZBuf.create junk w h).buf.length = Fb.cells w h := by
  simp [ZBuf.create, ZBuf.clear]

theorem zbuf_clear_create_length {K : Type} [Zero K] (junk : K) (w h : Nat) :
    (ZBuf.create junk w h).clear.buf.length = Fb.cells w h := by
  simp [ZBuf.create, ZBuf.clear]

/-! ## Cleared buffers -/

theorem fb_clear_get_blank (w h : Nat) (hwh : w * h < UINT_MOD) (buf : List Char)
    (x y : Nat) (hx : x < w) (hy : y < h) : (Fb.clear ⟨w, h, buf⟩).get x y = some ' ' := by
  have hc : Fb.cells w h = w * h := Nat.mod_eq_of_lt hwh
  have hi : y * w + x < w * h := index_lt hx hy
  simp only [Fb.clear, Fb.get, hx, hy, and_self, if_true, index_mod hwh hx hy, hc]
  rw [List.getElem?_append_left (by simpa using hi)]
  simp [hi]

theorem zbuf_clear_get_zero {K : Type} [Zero K] (w h : Nat) (hwh : w * h < UINT_MOD)
    (buf : List K) (x y : Nat) (hx : x < w) (hy : y < h) :
    (ZBuf.clear ⟨w, h, buf⟩).get x y = some 0 := by
  have hc : Fb.cells w h = w * h := Nat.mod_eq_of_lt hwh
  have hi : y * w + x < w * h := index_lt hx hy
  simp only [ZBuf.clear, ZBuf.get, hx, hy, and_self, if_true, index_mod hwh hx hy, hc]
  rw [List.getElem?_append_left (by simpa using hi)]
  simp [hi]

theorem fb_clear_WF (fb : Fb) (hwf : fb.WF) : fb.clear.WF := by
  obtain ⟨h1, h2, h3, h4⟩ := hwf
  have hc : Fb.cells fb.width fb.height = fb.width * fb.height := Nat.mod_eq_of_lt h3
  refine ⟨h1, h2, h3, ?_⟩
  simp [Fb.clear, hc, h4]

theorem zbuf_clear_WF {K : Type} [Zero K] (zb : ZBuf K) (hwf : zb.WF) : zb.clear.WF := by
  obtain ⟨h1, h2, h3, h4⟩ := hwf
  have hc : Fb.cells zb.width zb.height = zb.width * zb.height := Nat.mod_eq_of_lt h3
  refine ⟨h1, h2, h3, ?_⟩
  simp [ZBuf.clear, hc, h4]

theorem fb_clear_eq (fb : Fb) (hl : fb.buf.length = Fb.cells fb.width fb.height) :
    fb.clear = ⟨fb.width, fb.height, List.replicate (Fb.cells fb.width fb.height) ' '⟩ := by
  simp [Fb.clear, List.drop_eq_nil_of_le (le_of_eq hl)]

theorem zbuf_clear_eq {K : Type} [Zero K] (zb : ZBuf K)
    (hl : zb.buf.length = Fb.cells zb.width zb.height) :
    zb.clear = ⟨zb.width, zb.height, List.replicate (Fb.cells zb.width zb.height) 0⟩ := by
  simp [ZBuf.clear, List.drop_eq_nil_of_le (le_of_eq hl)]

theorem fb_set_some (fb : Fb) (hwf : fb.WF) (c : Char) {x y : Nat}
    (hx : x < fb.width) (hy : y < fb.height) : ∃ fb1, fb.set c x y = some fb1 := by
  obtain ⟨_, _, hwh, hlen⟩ := hwf
  have hi : y * fb.width + x < fb.buf.length := hlen ▸ index_lt hx hy
  exact ⟨{ fb with buf := fb.buf.set (y * fb.width + x) c },
    by simp only [Fb.set, hx, hy, and_self, if_true, index_mod hwh hx hy, hi]⟩

/-! ## One plot -/

section Plot

variable {K : Type} [LinearOrderedField K] [FloorRing K]

/-- What a successful `plot` does: the sample's cell passed the assertion of
the depth buffer; either the sample was rejected and nothing changed, or it was
accepted and its depth and shading character are in its cell; no other cell
changed. -/
theorem plot_spec (zd : Bool) (v : Sample K) (s s1 : Fb × ZBuf K) (hfb : s.1.WF)
    (hzb : s.2.WF) (h : plot zd v s = some s1) :
    s1.1.WF ∧ s1.2.WF ∧
    (s1.1.width = s.1.width ∧ s1.1.height = s.1.height ∧
      s1.2.width = s.2.width ∧ s1.2.height = s.2.height) ∧
    (v.cell.1 < s.2.width ∧ v.cell.2 < s.2.height) ∧
    (∃ d, s.2.get v.cell.1 v.cell.2 = some d ∧
      ((v.ooz ≤ d ∧ s1 = s) ∨
       (d < v.ooz ∧ (v.cell.1 < s.1.width ∧ v.cell.2 < s.1.height) ∧
         s1.2.get v.cell.1 v.cell.2 = some v.ooz ∧
         ∃ c, ramp_at (luminance_index v.luminance) = some c ∧
           s1.1.get v.cell.1 v.cell.2 = some c))) ∧
    (∀ x y, (x, y) ≠ v.cell → s1.2.get x y = s.2.get x y ∧ s1.1.get x y = s.1.get x y) := by
  obtain ⟨fb, zb⟩ := s
  simp only [Sample.cell] at *
  by_cases h1 : zd = true ∨ v.torus_z3 = 0
  · simp [plot, h1] at h
  by_cases h2 : in_int v.screen_x ∧ in_int v.screen_y
  swap
  · simp [plot, h1, h2] at h
  cases hset : zb.set v.ooz (to_unsigned v.screen_x) (to_unsigned v.screen_y) with
  | none => simp [plot, h1, h2, hset] at h
  | some r =>
    obtain ⟨b, zb1⟩ := r
    obtain ⟨hx, hy⟩ := zbuf_set_in_bounds zb _ _ _ _ hset
    obtain ⟨old, hold, _⟩ := zbuf_get_of_WF zb hzb hx hy
    obtain ⟨zb2, hset2, hwf2, hw2, hh2, hget2⟩ := zbuf_set_spec zb hzb hx hy v.ooz old hold
    have hframe := zbuf_set_frame zb hzb v.ooz b zb1 hset
    rw [hset] at hset2
    obtain ⟨hb, hzz⟩ := Prod.mk.inj (Option.some.inj hset2)
    subst hzz
    by_cases hlt : old < v.ooz
    · have hbt : b = true := by simpa [hlt] using hb
      subst hbt
      by_cases h3 : in_int (luminance_index v.luminance)
      swap
      · simp [plot, h1, h2, hset, h3] at h
      cases hr : ramp_at (luminance_index v.luminance) with
      | none => simp [plot, h1, h2, hset, h3, hr] at h
      | some c =>
        cases hfs : fb.set c (to_unsigned v.screen_x) (to_unsigned v.screen_y) with
        | none => simp [plot, h1, h2, hset, h3, hr, hfs] at h
        | some fb1 =>
          simp only [plot, h1, h2, hset, h3, hr, hfs, if_false, not_true_eq_false,
            not_false_eq_true, if_true, and_self, Option.some.injEq] at h
          subst h
          obtain ⟨hbf, hwf1, hw1, hh1, hg1, hf1⟩ := fb_set_spec fb hfb c _ _ fb1 hfs
          refine ⟨hwf1, hwf2, ⟨hw1, hh1, hw2, hh2⟩, ⟨hx, hy⟩, ⟨old, hold, Or.inr ?_⟩, ?_⟩
          · refine ⟨hlt, hbf, ?_, c, rfl, hg1⟩
            rw [hget2, max_eq_right (le_of_lt hlt)]
          · intro x y hne
            exact ⟨hframe x y hne, hf1 x y hne⟩
    · have hbf : b = false := by simpa [hlt] using hb
      subst hbf
      have hz : zb1 = zb := by
        have e := zbuf_set_eq zb hzb hx hy v.ooz old hold
        rw [if_neg hlt, hset] at e
        exact (Prod.mk.inj (Option.some.inj e)).2
      subst hz
      simp only [plot, h1, h2, hset, if_false, not_true_eq_false, and_self,
        Option.some.injEq] at h
      subst h
      exact ⟨hfb, hzb, ⟨rfl, rfl, rfl, rfl⟩, ⟨hx, hy⟩,
        ⟨old, hold, Or.inl ⟨not_lt.mp hlt, rfl⟩⟩, fun x y _ => ⟨rfl, rfl⟩⟩

theorem resolved_snoc_other (S : List (Sample K)) (v : Sample K) (x y : Nat) (d : K)
    (c : Char) (hr : Resolved S x y d c) (hne : v.cell ≠ (x, y)) :
    Resolved (S ++ [v]) x y d c := by
  rcases hr with ⟨hno, hd, hc⟩ | ⟨pre, s, post, hS, hs, hpre, hpost, hd, hc⟩
  · left
    refine ⟨fun t ht => ?_, hd, hc⟩
    rcases List.mem_append.mp ht with ht | ht
    · exact hno t ht
    · rw [List.mem_singleton.mp ht]; exact hne
  · right
    refine ⟨pre, s, post ++ [v], by rw [hS]; simp, hs, hpre, fun t ht htc => ?_, hd, hc⟩
    rcases List.mem_append.mp ht with ht | ht
    · exact hpost t ht htc
    · rw [List.mem_singleton.mp ht] at htc; exact absurd htc hne

theorem resolved_snoc_rejected (S : List (Sample K)) (v : Sample K) (x y : Nat) (d : K)
    (c : Char) (hr : Resolved S x y d c) (hle : v.ooz ≤ d) (hpos : 0 < v.ooz) :
    Resolved (S ++ [v]) x y d c := by
  rcases hr with ⟨_, hd, _⟩ | ⟨pre, s, post, hS, hs, hpre, hpost, hd, hc⟩
  · rw [hd] at hle; exact absurd hpos (not_lt.mpr hle)
  · right
    refine ⟨pre, s, post ++ [v], by rw [hS]; simp, hs, hpre, fun t ht htc => ?_, hd, hc⟩
    rcases List.mem_append.mp ht with ht | ht
    · exact hpost t ht htc
    · rw [List.mem_singleton.mp ht, ← hd]; exact hle

theorem resolved_snoc_accepted (S : List (Sample K)) (v : Sample K) (x y : Nat) (d : K)
    (c c1 : Char) (hr : Resolved S x y d c) (hcell : v.cell = (x, y)) (hlt : d < v.ooz)
    (hc1 : ramp_at (luminance_index v.luminance) = some c1) :
    Resolved (S ++ [v]) x y v.ooz c1 := by
  right
  refine ⟨S, v, [], rfl, hcell, fun t ht htc => ?_, fun t ht => absurd ht (List.not_mem_nil t),
    rfl, hc1⟩
  rcases hr with ⟨hno, _, _⟩ | ⟨pre, s, post, hS, hs, hpre, hpost, hd, _⟩
  · exact absurd htc (hno t ht)
  · rw [hS] at ht
    rcases List.mem_append.mp ht with ht | ht
    · exact lt_trans (hpre t ht htc) (hd ▸ hlt)
    · rcases List.mem_cons.mp ht with ht | ht
      · rw [ht]; exact hd ▸ hlt
      · exact lt_of_le_of_lt (hpost t ht htc) (hd ▸ hlt)

theorem plot_all_append (zd : Bool) (l1 l2 : List (Sample K)) (s : Fb × ZBuf K) :
    plot_all zd (l1 ++ l2) s = (plot_all zd l1 s).bind (plot_all zd l2) := by
  induction l1 generalizing s with
  | nil => rfl
  | cons v vs ih =>
    simp only [List.cons_append, plot_all]
    cases plot zd v s with
    | none => rfl
    | some s1 => exact ih s1

/-- Visibility resolution: after the samples `S` have been plotted on cleared
grids, every cell holds what `Resolved` prescribes, and every cell some sample
maps to lies inside both grids. -/
theorem plot_all_resolved (zd : Bool) (s0 : Fb × ZBuf K) (hfb : s0.1.WF) (hzb : s0.2.WF)
    (hblank : ∀ x y, x < s0.1.width → y < s0.1.height → s0.1.get x y = some ' ')
    (hzero : ∀ x y, x < s0.2.width → y < s0.2.height → s0.2.get x y = some 0)
    (S : List (Sample K)) :
    (∀ v ∈ S, 0 < v.ooz) → ∀ s1, plot_all zd S s0 = some s1 →
    s1.1.WF ∧ s1.2.WF ∧
    (s1.1.width = s0.1.width ∧ s1.1.height = s0.1.height ∧
      s1.2.width = s0.2.width ∧ s1.2.height = s0.2.height) ∧
    ∀ x y, ∃ d c, Resolved S x y d c ∧
      (x < s0.2.width → y < s0.2.height → s1.2.get x y = some d) ∧
      (x < s0.1.width → y < s0.1.height → s1.1.get x y = some c) ∧
      ((∃ v ∈ S, v.cell = (x, y)) →
        (x < s0.2.width ∧ y < s0.2.height) ∧ (x < s0.1.width ∧ y < s0.1.height)) := by
  induction S using List.reverseRecOn with
  | nil =>
    intro _ s1 h
    obtain rfl : s0 = s1 := Option.some.inj h
    refine ⟨hfb, hzb, ⟨rfl, rfl, rfl, rfl⟩, fun x y => ⟨0, ' ', ?_, hzero x y, hblank x y, ?_⟩⟩
    · exact Or.inl ⟨fun v hv => absurd hv (List.not_mem_nil v), rfl, rfl⟩
    · rintro ⟨v, hv, _⟩; exact absurd hv (List.not_mem_nil v)
  | append_singleton S v ih =>
    intro hpos s1 h
    rw [plot_all_append] at h
    cases hS : plot_all zd S s0 with
    | none => rw [hS] at h; exact absurd h (by simp)
    | some s =>
      rw [hS] at h
      have hv : plot zd v s = some s1 := by
        simp only [Option.some_bind, plot_all] at h
        cases hp : plot zd v s with
        | none => rw [hp] at h; exact absurd h (by simp)
        | some s2 => rw [hp] at h; exact h
      obtain ⟨hfb1, hzb1, ⟨e1, e2, e3, e4⟩, hcells⟩ :=
        ih (fun t ht => hpos t (List.mem_append_left _ ht)) s hS
      obtain ⟨hfb2, hzb2, ⟨f1, f2, f3, f4⟩, hvb, ⟨d0, hd0, hcase⟩, hframe⟩ :=
        plot_spec zd v s s1 hfb1 hzb1 hv
      have hvpos : 0 < v.ooz := hpos v (List.mem_append_right _ (List.mem_singleton_self v))
      refine ⟨hfb2, hzb2, ⟨f1.trans e1, f2.trans e2, f3.trans e3, f4.trans e4⟩, fun x y => ?_⟩
      obtain ⟨d, c, hres, hzget, hfget, hin⟩ := hcells x y
      by_cases hcell : v.cell = (x, y)
      · have hx1 : v.cell.1 = x := by rw [hcell]
        have hy1 : v.cell.2 = y := by rw [hcell]
        rw [hx1, hy1] at hvb hd0 hcase
        have hzin : x < s0.2.width ∧ y < s0.2.height := ⟨e3 ▸ hvb.1, e4 ▸ hvb.2⟩
        have hdd : d0 = d := by
          have := hzget hzin.1 hzin.2
          rw [hd0] at this
          exact Option.some.inj this
        subst hdd
        rcases hcase with ⟨hle, hs⟩ | ⟨hlt, hfin, hzg, c1, hc1, hfg⟩
        · subst hs
          have hres1 := resolved_snoc_rejected S v x y d0 c hres hle hvpos
          have hex : ∃ t ∈ S, t.cell = (x, y) := by
            rcases hres with ⟨_, hd, _⟩ | ⟨pre, t, post, hS1, ht, _⟩
            · rw [hd] at hle; exact absurd hvpos (not_lt.mpr hle)
            · exact ⟨t, by rw [hS1]; simp, ht⟩
          exact ⟨d0, c, hres1, hzget, hfget, fun _ => hin hex⟩
        · have hfin0 : x < s0.1.width ∧ y < s0.1.height := ⟨e1 ▸ hfin.1, e2 ▸ hfin.2⟩
          exact ⟨v.ooz, c1, resolved_snoc_accepted S v x y d0 c c1 hres hcell hlt hc1,
            fun _ _ => hzg, fun _ _ => hfg, fun _ => ⟨hzin, hfin0⟩⟩
      · have hne : (x, y) ≠ v.cell := fun e => hcell e.symm
        obtain ⟨hz1, hf1⟩ := hframe x y hne
        refine ⟨d, c, resolved_snoc_other S v x y d c hres hcell, ?_, ?_, ?_⟩
        · intro hx hy; rw [hz1]; exact hzget hx hy
        · intro hx hy; rw [hf1]; exact hfget hx hy
        · rintro ⟨t, ht, htc⟩
          rcases List.mem_append.mp ht with ht | ht
          · exact hin ⟨t, ht, htc⟩
          · rw [List.mem_singleton.mp ht] at htc; exact absurd htc hcell

theorem plot_all_WF (zd : Bool) (S : List (Sample K)) :
    ∀ (s s1 : Fb × ZBuf K), s.1.WF → s.2.WF → plot_all zd S s = some s1 →
    s1.1.WF ∧ s1.2.WF ∧ s1.1.width = s.1.width ∧ s1.1.height = s.1.height := by
  induction S with
  | nil =>
    intro s s1 hfb hzb h
    obtain rfl : s = s1 := Option.some.inj h
    exact ⟨hfb, hzb, rfl, rfl⟩
  | cons v vs ih =>
    intro s s1 hfb hzb h
    simp only [plot_all] at h
    cases hp : plot zd v s with
    | none => rw [hp] at h; exact absurd h (by simp)
    | some s2 =>
      rw [hp] at h
      obtain ⟨h1, h2, ⟨e1, e2, _, _⟩, _⟩ := plot_spec zd v s s2 hfb hzb hp
      obtain ⟨g1, g2, g3, g4⟩ := ih s2 s1 h1 h2 h
      exact ⟨g1, g2, g3.trans e1, g4.trans e2⟩

/-- A completed loop over `phi` has plotted, in order, the samples of the
angles it visited. -/
theorem phi_loop_plot_all (T : Libm K) (r1 r2 : Nat)
    (z_offset angle_step_phi rot_x rot_z theta : K) (fuel : Nat) :
    ∀ (phi : K) (s s1 : Fb × ZBuf K), s.1.WF → s.2.WF →
    phi_loop T r1 r2 z_offset angle_step_phi rot_x rot_z theta fuel phi s = some s1 →
    plot_all (decide (mult_den r1 r2 = 0))
      ((angles T angle_step_phi fuel phi).map (fun p =>
        sample T s.1.width s.1.height r1 r2 z_offset rot_x rot_z theta p)) s = some s1 := by
  induction fuel with
  | zero => intro phi s s1 _ _ h; simp [phi_loop] at h
  | succ fuel ih =>
    intro phi s s1 hfb hzb h
    by_cases hlt : phi < 2 * T.M_PI
    · simp only [phi_loop, hlt, if_true] at h
      cases hd : draw_sample T r1 r2 z_offset rot_x rot_z theta phi s with
      | none => rw [hd] at h; exact absurd h (by simp)
      | some s2 =>
        rw [hd] at h
        have hp : plot (decide (mult_den r1 r2 = 0))
            (sample T s.1.width s.1.height r1 r2 z_offset rot_x rot_z theta phi) s = some s2 := hd
        obtain ⟨h1, h2, ⟨e1, e2, _, _⟩, _⟩ := plot_spec _ _ s s2 hfb hzb hp
        have := ih (phi + angle_step_phi) s2 s1 h1 h2 h
        rw [e1, e2] at this
        simp only [angles, hlt, if_true, List.map_cons, plot_all, hp]
        exact this
    · simp only [phi_loop, hlt, if_false] at h
      simp only [angles, hlt, if_false, List.map_nil, plot_all]
      exact h

/-- A completed loop over `theta` has plotted, in order, the samples of the
angle pairs it visited. -/
theorem theta_loop_plot_all (T : Libm K) (r1 r2 : Nat)
    (z_offset angle_step_theta angle_step_phi rot_x rot_z : K) (fuel n : Nat) :
    ∀ (theta : K) (s s1 : Fb × ZBuf K), s.1.WF → s.2.WF →
    theta_loop T r1 r2 z_offset angle_step_theta angle_step_phi rot_x rot_z fuel n theta s =
      some s1 →
    plot_all (decide (mult_den r1 r2 = 0))
      ((angles T angle_step_theta n theta).flatMap (fun t =>
        (angles T angle_step_phi fuel 0).map (fun p =>
          sample T s.1.width s.1.height r1 r2 z_offset rot_x rot_z t p))) s = some s1 := by
  induction n with
  | zero => intro theta s s1 _ _ h; simp [theta_loop] at h
  | succ n ih =>
    intro theta s s1 hfb hzb h
    by_cases hlt : theta < 2 * T.M_PI
    · simp only [theta_loop, hlt, if_true] at h
      cases hd : phi_loop T r1 r2 z_offset angle_step_phi rot_x rot_z theta fuel 0 s with
      | none => rw [hd] at h; exact absurd h (by simp)
      | some s2 =>
        rw [hd] at h
        have hp := phi_loop_plot_all T r1 r2 z_offset angle_step_phi rot_x rot_z theta fuel
          0 s s2 hfb hzb hd
        obtain ⟨h1, h2, e1, e2⟩ := plot_all_WF _ _ s s2 hfb hzb hp
        have := ih (theta + angle_step_theta) s2 s1 h1 h2 h
        rw [e1, e2] at this
        simp only [angles, hlt, if_true, List.flatMap_cons, plot_all_append, hp,
          Option.some_bind]
        exact this
    · simp only [theta_loop, hlt, if_false] at h
      simp only [angles, hlt, if_false, List.flatMap_nil, plot_all]
      exact h

theorem samples_ooz_pos (T : Libm K) (hT : ∀ t, T.sin t ^ 2 + T.cos t ^ 2 = 1)
    (fuel width height r1 r2 : Nat) (z_offset angle_step_theta angle_step_phi rot_x rot_z : K)
    (hz : (r1 : K) + (r2 : K) < z_offset) :
    ∀ v ∈ samples T fuel width height r1 r2 z_offset angle_step_theta angle_step_phi
      rot_x rot_z, 0 < v.ooz := by
  intro v hv
  simp only [samples, List.mem_flatMap, List.mem_map] at hv
  obtain ⟨theta, _, phi, _, rfl⟩ := hv
  exact (sample_ooz_pos T hT width height r1 r2 z_offset rot_x rot_z theta phi hz).2

/-! ### Fuel -/

theorem phi_loop_fuel_stable (T : Libm K) (r1 r2 : Nat)
    (z_offset angle_step_phi rot_x rot_z theta : K) (fuel : Nat) :
    ∀ (phi : K) (s s1 : Fb × ZBuf K),
    phi_loop T r1 r2 z_offset angle_step_phi rot_x rot_z theta fuel phi s = some s1 →
    ∀ k, phi_loop T r1 r2 z_offset angle_step_phi rot_x rot_z theta (fuel + k) phi s = some s1 ∧
      angles T angle_step_phi (fuel + k) phi = angles T angle_step_phi fuel phi := by
  induction fuel with
  | zero => intro phi s s1 h; simp [phi_loop] at h
  | succ fuel ih =>
    intro phi s s1 h k
    rw [Nat.add_right_comm]
    by_cases hlt : phi < 2 * T.M_PI
    · simp only [phi_loop, hlt, if_true] at h
      cases hd : draw_sample T r1 r2 z_offset rot_x rot_z theta phi s with
      | none => rw [hd] at h; exact absurd h (by simp)
      | some s2 =>
        rw [hd] at h
        obtain ⟨h1, h2⟩ := ih (phi + angle_step_phi) s2 s1 h k
        simp only [phi_loop, angles, hlt, if_true, hd, h1, h2, and_self]
    · simp only [phi_loop, hlt, if_false] at h
      simp only [phi_loop, angles, hlt, if_false, h, and_self]

theorem theta_loop_fuel_stable (T : Libm K) (r1 r2 : Nat)
    (z_offset angle_step_theta angle_step_phi rot_x rot_z : K) (fuel n : Nat) :
    ∀ (theta : K) (s s1 : Fb × ZBuf K),
    theta_loop T r1 r2 z_offset angle_step_theta angle_step_phi rot_x rot_z fuel n theta s =
      some s1 →
    ∀ k j, theta_loop T r1 r2 z_offset angle_step_theta angle_step_phi rot_x rot_z
        (fuel + k) (n + j) theta s = some s1 ∧
      angles T angle_step_theta (n + j) theta = angles T angle_step_theta n theta ∧
      (angles T angle_step_theta n theta ≠ [] →
        angles T angle_step_phi (fuel + k) 0 = angles T angle_step_phi fuel 0) := by
  induction n with
  | zero => intro theta s s1 h; simp [theta_loop] at h
  | succ n ih =>
    intro theta s s1 h k j
    rw [Nat.add_right_comm]
    by_cases hlt : theta < 2 * T.M_PI
    · simp only [theta_loop, hlt, if_true] at h
      cases hd : phi_loop T r1 r2 z_offset angle_step_phi rot_x rot_z theta fuel 0 s with
      | none => rw [hd] at h; exact absurd h (by simp)
      | some s2 =>
        rw [hd] at h
        obtain ⟨p1, p2⟩ := phi_loop_fuel_stable T r1 r2 z_offset angle_step_phi rot_x rot_z
          theta fuel 0 s s2 hd k
        obtain ⟨h1, h2, _⟩ := ih (theta + angle_step_theta) s2 s1 h k j
        simp only [theta_loop, angles, hlt, if_true, p1, h1, h2, true_and]
        exact fun _ => p2
    · simp only [theta_loop, hlt, if_false] at h
      simp only [theta_loop, angles, hlt, if_false, h, true_and]
      exact fun hne => absurd rfl hne

/-- More fuel changes neither the result of a completed `draw_torus` nor the
list of its samples. -/
theorem draw_torus_fuel_stable (T : Libm K) (fuel : Nat) (fb : Fb) (zbuf : ZBuf K)
    (r1 r2 : Nat) (z_offset angle_step_theta angle_step_phi rot_x rot_z : K)
    (r : Fb × ZBuf K)
    (hrun : draw_torus T fuel fb zbuf r1 r2 z_offset angle_step_theta angle_step_phi
      rot_x rot_z = some r) (k : Nat) :
    draw_torus T (fuel + k) fb zbuf r1 r2 z_offset angle_step_theta angle_step_phi
      rot_x rot_z = some r ∧
    samples T (fuel + k) fb.width fb.height r1 r2 z_offset angle_step_theta angle_step_phi
      rot_x rot_z =
    samples T fuel fb.width fb.height r1 r2 z_offset angle_step_theta angle_step_phi
      rot_x rot_z := by
  obtain ⟨h1, h2, h3⟩ := theta_loop_fuel_stable T r1 r2 z_offset angle_step_theta
    angle_step_phi rot_x rot_z fuel fuel 0 _ r hrun k k
  refine ⟨h1, ?_⟩
  simp only [samples, h2]
  by_cases hne : angles T angle_step_theta fuel 0 = []
  · rw [hne]; rfl
  · rw [h3 hne]

/-! ### Enough fuel -/

theorem fb_set_dims (fb fb1 : Fb) (c : Char) (x y : Nat) (h : fb.set c x y = some fb1) :
    fb1.width = fb.width ∧ fb1.height = fb.height := by
  unfold Fb.set at h
  split at h
  · split at h
    · obtain rfl := Option.some.inj h
      exact ⟨rfl, rfl⟩
    · exact absurd h (by simp)
  · exact absurd h (by simp)

theorem plot_dims (zd : Bool) (v : Sample K) (s s1 : Fb × ZBuf K)
    (h : plot zd v s = some s1) : s1.1.width = s.1.width ∧ s1.1.height = s.1.height := by
  obtain ⟨fb, zb⟩ := s
  by_cases h1 : zd = true ∨ v.torus_z3 = 0
  · simp [plot, h1] at h
  by_cases h2 : in_int v.screen_x ∧ in_int v.screen_y
  swap
  · simp [plot, h1, h2] at h
  cases hset : zb.set v.ooz (to_unsigned v.screen_x) (to_unsigned v.screen_y) with
  | none => simp [plot, h1, h2, hset] at h
  | some r =>
    obtain ⟨b, zb1⟩ := r
    cases b with
    | false =>
      simp only [plot, h1, h2, hset, if_false, not_true_eq_false, and_self,
        Option.some.injEq] at h
      subst h
      exact ⟨rfl, rfl⟩
    | true =>
      by_cases h3 : in_int (luminance_index v.luminance)
      swap
      · simp [plot, h1, h2, hset, h3] at h
      cases hr : ramp_at (luminance_index v.luminance) with
      | none => simp [plot, h1, h2, hset, h3, hr] at h
      | some c =>
        cases hfs : fb.set c (to_unsigned v.screen_x) (to_unsigned v.screen_y) with
        | none => simp [plot, h1, h2, hset, h3, hr, hfs] at h
        | some fb1 =>
          simp only [plot, h1, h2, hset, h3, hr, hfs, if_false, not_true_eq_false,
            not_false_eq_true, if_true, and_self, Option.some.injEq] at h
          subst h
          exact fb_set_dims fb fb1 c _ _ hfs

theorem plot_all_dims (zd : Bool) (S : List (Sample K)) :
    ∀ (s s1 : Fb × ZBuf K), plot_all zd S s = some s1 →
    s1.1.width = s.1.width ∧ s1.1.height = s.1.height := by
  induction S with
  | nil =>
    intro s s1 h
    obtain rfl : s = s1 := Option.some.inj h
    exact ⟨rfl, rfl⟩
  | cons v vs ih =>
    intro s s1 h
    simp only [plot_all] at h
    cases hp : plot zd v s with
    | none => rw [hp] at h; exact absurd h (by simp)
    | some s2 =>
      rw [hp] at h
      obtain ⟨e1, e2⟩ := plot_dims zd v s s2 hp
      obtain ⟨g1, g2⟩ := ih s2 s1 h
      exact ⟨g1.trans e1, g2.trans e2⟩

/-- With one more unit of fuel than the loop has iterations, the loop over
`phi` is the plotting of the samples of its angles: it has a result unless a
plot has none. -/
theorem phi_loop_eq_plot_all (T : Libm K) (r1 r2 : Nat)
    (z_offset angle_step_phi rot_x rot_z theta : K) (fuel : Nat) :
    ∀ (n : Nat) (phi : K) (s : Fb × ZBuf K), n < fuel →
    2 * T.M_PI ≤ phi + n * angle_step_phi →
    phi_loop T r1 r2 z_offset angle_step_phi rot_x rot_z theta fuel phi s =
    plot_all (decide (mult_den r1 r2 = 0))
      ((angles T angle_step_phi fuel phi).map (fun p =>
        sample T s.1.width s.1.height r1 r2 z_offset rot_x rot_z theta p)) s := by
  induction fuel with
  | zero => intro n phi s hn; exact absurd hn (Nat.not_lt_zero n)
  | succ fuel ih =>
    intro n phi s hn h
    by_cases hlt : phi < 2 * T.M_PI
    · have hn0 : n ≠ 0 := by
        rintro rfl
        simp only [Nat.cast_zero, zero_mul, add_zero] at h
        exact absurd hlt (not_lt.mpr h)
      obtain ⟨m, rfl⟩ : ∃ m, n = m + 1 := ⟨n - 1, by omega⟩
      have h1 : 2 * T.M_PI ≤ phi + angle_step_phi + m * angle_step_phi := by
        have e : phi + ((m + 1 : Nat) : K) * angle_step_phi =
            phi + angle_step_phi + m * angle_step_phi := by push_cast; ring
        rw [← e]; exact h
      simp only [phi_loop, angles, hlt, if_true, List.map_cons, plot_all]
      have hp : draw_sample T r1 r2 z_offset rot_x rot_z theta phi s =
          plot (decide (mult_den r1 r2 = 0))
            (sample T s.1.width s.1.height r1 r2 z_offset rot_x rot_z theta phi) s := rfl
      rw [hp]
      cases hq : plot (decide (mult_den r1 r2 = 0))
          (sample T s.1.width s.1.height r1 r2 z_offset rot_x rot_z theta phi) s with
      | none => rfl
      | some s2 =>
        obtain ⟨e1, e2⟩ := plot_dims _ _ s s2 hq
        have := ih m (phi + angle_step_phi) s2 (by omega) h1
        rw [e1, e2] at this
        exact this
    · simp only [phi_loop, angles, hlt, if_false, List.map_nil, plot_all]

theorem theta_loop_eq_plot_all (T : Libm K) (r1 r2 : Nat)
    (z_offset angle_step_theta angle_step_phi rot_x rot_z : K) (fuel m : Nat) (hm : m < fuel)
    (hphi : 2 * T.M_PI ≤ 0 + m * angle_step_phi) (k : Nat) :
    ∀ (n : Nat) (theta : K) (s : Fb × ZBuf K), n < k →
    2 * T.M_PI ≤ theta + n * angle_step_theta →
    theta_loop T r1 r2 z_offset angle_step_theta angle_step_phi rot_x rot_z fuel k theta s =
    plot_all (decide (mult_den r1 r2 = 0))
      ((angles T angle_step_theta k theta).flatMap (fun t =>
        (angles T angle_step_phi fuel 0).map (fun p =>
          sample T s.1.width s.1.height r1 r2 z_offset rot_x rot_z t p))) s := by
  induction k with
  | zero => intro n theta s hn; exact absurd hn (Nat.not_lt_zero n)
  | succ k ih =>
    intro n theta s hn h
    by_cases hlt : theta < 2 * T.M_PI
    · have hn0 : n ≠ 0 := by
        rintro rfl
        simp only [Nat.cast_zero, zero_mul, add_zero] at h
        exact absurd hlt (not_lt.mpr h)
      obtain ⟨j, rfl⟩ : ∃ j, n = j + 1 := ⟨n - 1, by omega⟩
      have h1 : 2 * T.M_PI ≤ theta + angle_step_theta + j * angle_step_theta := by
        have e : theta + ((j + 1 : Nat) : K) * angle_step_theta =
            theta + angle_step_theta + j * angle_step_theta := by push_cast; ring
        rw [← e]; exact h
      simp only [theta_loop, angles, hlt, if_true, List.flatMap_cons, plot_all_append]
      rw [phi_loop_eq_plot_all T r1 r2 z_offset angle_step_phi rot_x rot_z theta fuel m 0 s
        hm hphi]
      cases hq : plot_all (decide (mult_den r1 r2 = 0))
          ((angles T angle_step_phi fuel 0).map (fun p =>
            sample T s.1.width s.1.height r1 r2 z_offset rot_x rot_z theta p)) s with
      | none => rfl
      | some s2 =>
        obtain ⟨e1, e2⟩ := plot_all_dims _ _ s s2 hq
        have := ih j (theta + angle_step_theta) s2 (by omega) h1
        rw [e1, e2] at this
        simp only [Option.some_bind]
        exact this
    · simp only [theta_loop, angles, hlt, if_false, List.flatMap_nil, plot_all]

/-- With enough fuel `draw_torus` is the plotting of its samples on the cleared
buffers: it completes unless a plot has no result. -/
theorem draw_torus_eq_plot_all (T : Libm K) (fuel n m : Nat) (hn : n < fuel) (hm : m < fuel)
    (fb : Fb) (zbuf : ZBuf K) (r1 r2 : Nat)
    (z_offset angle_step_theta angle_step_phi rot_x rot_z : K)
    (htheta : 2 * T.M_PI ≤ n * angle_step_theta) (hphi : 2 * T.M_PI ≤ m * angle_step_phi) :
    draw_torus T fuel fb zbuf r1 r2 z_offset angle_step_theta angle_step_phi rot_x rot_z =
    plot_all (decide (mult_den r1 r2 = 0))
      (samples T fuel fb.width fb.height r1 r2 z_offset angle_step_theta angle_step_phi
        rot_x rot_z) (fb.clear, zbuf.clear) :=
  theta_loop_eq_plot_all T r1 r2 z_offset angle_step_theta angle_step_phi rot_x rot_z fuel m
    hm (by rw [zero_add]; exact hphi) fuel n 0 (fb.clear, zbuf.clear) hn
    (by rw [zero_add]; exact htheta)

omit [FloorRing K] in
theorem angles_eq_of_enough (T : Libm K) (step : K) (fuel : Nat) :
    ∀ (fuel2 n : Nat) (a : K), n < fuel → n < fuel2 → 2 * T.M_PI ≤ a + n * step →
    angles T step fuel a = angles T step fuel2 a := by
  induction fuel with
  | zero => intro _ n _ hn; exact absurd hn (Nat.not_lt_zero n)
  | succ fuel ih =>
    intro fuel2 n a hn hn2 h
    obtain ⟨f2, rfl⟩ : ∃ f2, fuel2 = f2 + 1 := ⟨fuel2 - 1, by omega⟩
    by_cases hlt : a < 2 * T.M_PI
    · have hn0 : n ≠ 0 := by
        rintro rfl
        simp only [Nat.cast_zero, zero_mul, add_zero] at h
        exact absurd hlt (not_lt.mpr h)
      obtain ⟨j, rfl⟩ : ∃ j, n = j + 1 := ⟨n - 1, by omega⟩
      have h1 : 2 * T.M_PI ≤ a + step + j * step := by
        have e : a + ((j + 1 : Nat) : K) * step = a + step + j * step := by push_cast; ring
        rw [← e]; exact h
      simp only [angles, hlt, if_true]
      rw [ih f2 j (a + step) (by omega) (by omega) h1]
    · simp only [angles, hlt, if_false]

/-! ### The cells after a completed run -/

/-- After a completed `draw_torus` with `z_offset > r1 + r2` every cell holds
what `Resolved` prescribes for the samples of the run. -/
theorem draw_torus_cells (T : Libm K) (hT : ∀ t, T.sin t ^ 2 + T.cos t ^ 2 = 1) (fuel : Nat)
    (fb : Fb) (zbuf : ZBuf K) (hfb : fb.WF) (hzb : zbuf.WF) (r1 r2 : Nat)
    (z_offset angle_step_theta angle_step_phi rot_x rot_z : K)
    (hz : (r1 : K) + (r2 : K) < z_offset) (r : Fb × ZBuf K)
    (hrun : draw_torus T fuel fb zbuf r1 r2 z_offset angle_step_theta angle_step_phi
      rot_x rot_z = some r) :
    ∀ x y, ∃ d c,
      Resolved (samples T fuel fb.width fb.height r1 r2 z_offset angle_step_theta
        angle_step_phi rot_x rot_z) x y d c ∧
      (x < zbuf.width → y < zbuf.height → r.2.get x y = some d) ∧
      (x < fb.width → y < fb.height → r.1.get x y = some c) ∧
      ((∃ v ∈ samples T fuel fb.width fb.height r1 r2 z_offset angle_step_theta
          angle_step_phi rot_x rot_z, v.cell = (x, y)) →
        (x < zbuf.width ∧ y < zbuf.height) ∧ (x < fb.width ∧ y < fb.height)) := by
  have hblank : ∀ x y, x < fb.clear.width → y < fb.clear.height →
      fb.clear.get x y = some ' ' :=
    fun x y hx hy => fb_clear_get_blank fb.width fb.height hfb.2.2.1 fb.buf x y hx hy
  have hzero : ∀ x y, x < zbuf.clear.width → y < zbuf.clear.height →
      zbuf.clear.get x y = some 0 :=
    fun x y hx hy => zbuf_clear_get_zero zbuf.width zbuf.height hzb.2.2.1 zbuf.buf x y hx hy
  have hall := theta_loop_plot_all T r1 r2 z_offset angle_step_theta angle_step_phi rot_x
    rot_z fuel fuel 0 (fb.clear, zbuf.clear) r (fb_clear_WF fb hfb)
    (zbuf_clear_WF zbuf hzb) hrun
  exact (plot_all_resolved _ (fb.clear, zbuf.clear) (fb_clear_WF fb hfb)
    (zbuf_clear_WF zbuf hzb) hblank hzero _
    (samples_ooz_pos T hT fuel fb.width fb.height r1 r2 z_offset angle_step_theta
      angle_step_phi rot_x rot_z hz) r hall).2.2.2

omit [FloorRing K] in
theorem angles_head (T : Libm K) (step : K) (fuel : Nat) (hpi : 0 < T.M_PI) :
    (0 : K) ∈ angles T step (fuel + 1) 0 := by
  have h : (0 : K) < 2 * T.M_PI := by linarith
  simp only [angles, h, if_true]
  exact List.mem_cons_self _ _

theorem ramp_at_ne_blank (i : Int) (c : Char) (h : ramp_at i = some c) : c ≠ ' ' := by
  unfold ramp_at at h
  split at h
  · have hm : c ∈ ramp ++ [Char.ofNat 0] := List.getElem?_mem h
    rintro rfl
    revert hm
    decide
  · exact absurd h (by simp)

/-- After a completed `draw_torus` with `z_offset > r1 + r2` and `M_PI > 0` the
cell of the first sample holds a character that is not the blank. -/
theorem draw_torus_first_cell (T : Libm K) (hT : ∀ t, T.sin t ^ 2 + T.cos t ^ 2 = 1)
    (hpi : 0 < T.M_PI) (fuel : Nat)
    (fb : Fb) (zbuf : ZBuf K) (hfb : fb.WF) (hzb : zbuf.WF) (r1 r2 : Nat)
    (z_offset angle_step_theta angle_step_phi rot_x rot_z : K)
    (hz : (r1 : K) + (r2 : K) < z_offset) (r : Fb × ZBuf K)
    (hrun : draw_torus T fuel fb zbuf r1 r2 z_offset angle_step_theta angle_step_phi
      rot_x rot_z = some r) :
    ∃ x y c, x < fb.width ∧ y < fb.height ∧ r.1.get x y = some c ∧ c ≠ ' ' := by
  obtain ⟨f, rfl⟩ : ∃ f, fuel = f + 1 := by
    cases fuel with
    | zero => simp [draw_torus, theta_loop] at hrun
    | succ f => exact ⟨f, rfl⟩
  have hmem : sample T fb.width fb.height r1 r2 z_offset rot_x rot_z 0 0 ∈
      samples T (f + 1) fb.width fb.height r1 r2 z_offset angle_step_theta angle_step_phi
        rot_x rot_z := by
    simp only [samples, List.mem_flatMap, List.mem_map]
    exact ⟨0, angles_head T _ f hpi, 0, angles_head T _ f hpi, rfl⟩
  obtain ⟨d, c, hres, _, hfget, hin⟩ := draw_torus_cells T hT (f + 1) fb zbuf hfb hzb r1 r2
    z_offset angle_step_theta angle_step_phi rot_x rot_z hz r hrun
    (sample T fb.width fb.height r1 r2 z_offset rot_x rot_z 0 0).cell.1
    (sample T fb.width fb.height r1 r2 z_offset rot_x rot_z 0 0).cell.2
  obtain ⟨_, hfin⟩ := hin ⟨_, hmem, rfl⟩
  refine ⟨_, _, c, hfin.1, hfin.2, hfget hfin.1 hfin.2, ?_⟩
  rcases hres with ⟨hno, _, _⟩ | ⟨_, s, _, _, _, _, _, _, hc⟩
  · exact absurd rfl (hno _ hmem)
  · exact ramp_at_ne_blank _ c hc

/-- After a completed `draw_torus` with `z_offset > r1 + r2` a framebuffer cell
holds the blank or the shading character of one of the samples of that cell,
the one of `Resolved`. -/
theorem draw_torus_cell_char (T : Libm K) (hT : ∀ t, T.sin t ^ 2 + T.cos t ^ 2 = 1)
    (fuel : Nat) (fb : Fb) (zbuf : ZBuf K) (hfb : fb.WF) (hzb : zbuf.WF) (r1 r2 : Nat)
    (z_offset angle_step_theta angle_step_phi rot_x rot_z : K)
    (hz : (r1 : K) + (r2 : K) < z_offset) (r : Fb × ZBuf K)
    (hrun : draw_torus T fuel fb zbuf r1 r2 z_offset angle_step_theta angle_step_phi
      rot_x rot_z = some r) (x y : Nat) (hx : x < fb.width) (hy : y < fb.height) :
    r.1.get x y = some ' ' ∨
    ∃ pre s post c,
      samples T fuel fb.width fb.height r1 r2 z_offset angle_step_theta angle_step_phi
        rot_x rot_z = pre ++ s :: post ∧
      s.cell = (x, y) ∧
      (∀ t ∈ pre, t.cell = (x, y) → t.ooz < s.ooz) ∧
      (∀ t ∈ post, t.cell = (x, y) → t.ooz ≤ s.ooz) ∧
      r.2.get x y = some s.ooz ∧
      ramp_at (luminance_index s.luminance) = some c ∧ r.1.get x y = some c := by
  obtain ⟨d, c, hres, hzget, hfget, hin⟩ := draw_torus_cells T hT fuel fb zbuf hfb hzb r1 r2
    z_offset angle_step_theta angle_step_phi rot_x rot_z hz r hrun x y
  rcases hres with ⟨_, _, hc⟩ | ⟨pre, s, post, hS, hs, hpre, hpost, hd, hc⟩
  · left; rw [hfget hx hy, hc]
  · right
    obtain ⟨hzin, _⟩ := hin ⟨s, by rw [hS]; simp, hs⟩
    exact ⟨pre, s, post, c, hS, hs, hpre, hpost, hd ▸ hzget hzin.1 hzin.2, hc, hfget hx hy⟩

theorem samples_mem (T : Libm K) (fuel width height r1 r2 : Nat)
    (z_offset angle_step_theta angle_step_phi rot_x rot_z : K) (v : Sample K)
    (hv : v ∈ samples T fuel width height r1 r2 z_offset angle_step_theta angle_step_phi
      rot_x rot_z) :
    ∃ theta phi, v = sample T width height r1 r2 z_offset rot_x rot_z theta phi := by
  simp only [samples, List.mem_flatMap, List.mem_map] at hv
  obtain ⟨theta, _, phi, _, rfl⟩ := hv
  exact ⟨theta, phi, rfl⟩

/-! ### Runs that complete -/

/-- A plot has a result when no divisor is zero, the coordinates fit an `int`
and lie inside both grids, and the luminance index is in `0..11`. -/
theorem plot_some (v : Sample K) (s : Fb × ZBuf K) (hfb : s.1.WF) (hzb : s.2.WF)
    (h0 : v.torus_z3 ≠ 0) (hix : in_int v.screen_x) (hiy : in_int v.screen_y)
    (hzx : v.cell.1 < s.2.width) (hzy : v.cell.2 < s.2.height)
    (hfx : v.cell.1 < s.1.width) (hfy : v.cell.2 < s.1.height)
    (hl0 : 0 ≤ luminance_index v.luminance) (hl1 : luminance_index v.luminance ≤ 11) :
    ∃ s1, plot false v s = some s1 := by
  obtain ⟨fb, zb⟩ := s
  simp only [Sample.cell] at hzx hzy hfx hfy
  obtain ⟨old, hold, _⟩ := zbuf_get_of_WF zb hzb hzx hzy
  obtain ⟨zb1, hset, _⟩ := zbuf_set_spec zb hzb hzx hzy v.ooz old hold
  have hii : in_int (luminance_index v.luminance) := by
    unfold in_int
    constructor <;> omega
  obtain ⟨c, hc, _⟩ := ramp_at_some_of_le_eleven _ hl0 hl1
  obtain ⟨fb1, hfs⟩ := fb_set_some fb hfb c hfx hfy
  by_cases hlt : old < v.ooz
  · refine ⟨(fb1, zb1), ?_⟩
    simp [plot, h0, hix, hiy, hset, hlt, hii, hc, hfs]
  · refine ⟨(fb, zb1), ?_⟩
    simp [plot, h0, hix, hiy, hset, hlt]

theorem plot_all_some (w h : Nat) (S : List (Sample K)) :
    (∀ v ∈ S, v.torus_z3 ≠ 0 ∧ in_int v.screen_x ∧ in_int v.screen_y ∧
      v.cell.1 < w ∧ v.cell.2 < h ∧
      0 ≤ luminance_index v.luminance ∧ luminance_index v.luminance ≤ 11) →
    ∀ s : Fb × ZBuf K, s.1.WF → s.2.WF → s.1.width = w → s.1.height = h →
      s.2.width = w → s.2.height = h → ∃ s1, plot_all false S s = some s1 := by
  induction S with
  | nil => intro _ s _ _ _ _ _ _; exact ⟨s, rfl⟩
  | cons v vs ih =>
    intro hS s hfb hzb e1 e2 e3 e4
    obtain ⟨g0, g1, g2, g3, g4, g5, g6⟩ := hS v (List.mem_cons_self _ _)
    obtain ⟨s1, hp⟩ := plot_some v s hfb hzb g0 g1 g2 (e3 ▸ g3) (e4 ▸ g4) (e1 ▸ g3)
      (e2 ▸ g4) g5 g6
    obtain ⟨hfb1, hzb1, ⟨f1, f2, f3, f4⟩, _⟩ := plot_spec false v s s1 hfb hzb hp
    obtain ⟨s2, h2⟩ := ih (fun t ht => hS t (List.mem_cons_of_mem _ ht)) s1 hfb1 hzb1
      (f1.trans e1) (f2.trans e2) (f3.trans e3) (f4.trans e4)
    exact ⟨s2, by simp only [plot_all, hp, h2]⟩

/-- With the constants of `main`, `50 × 25` grids and enough fuel `draw_torus`
completes, whatever the rotation and the steps. -/
theorem main_draw_torus_completes (T : Libm K) (hT : ∀ t, T.sin t ^ 2 + T.cos t ^ 2 = 1)
    (fuel n m : Nat) (hn : n < fuel) (hm : m < fuel) (fb : Fb) (zbuf : ZBuf K)
    (hfb : fb.WF) (hzb : zbuf.WF) (hfw : fb.width = 50) (hfh : fb.height = 25)
    (hzw : zbuf.width = 50) (hzh : zbuf.height = 25)
    (angle_step_theta angle_step_phi rot_x rot_z : K)
    (htheta : 2 * T.M_PI ≤ n * angle_step_theta) (hphi : 2 * T.M_PI ≤ m * angle_step_phi) :
    ∃ r, draw_torus T fuel fb zbuf 2 1 5 angle_step_theta angle_step_phi rot_x rot_z =
      some r := by
  rw [draw_torus_eq_plot_all T fuel n m hn hm fb zbuf 2 1 5 angle_step_theta angle_step_phi
    rot_x rot_z htheta hphi]
  have hd : decide (mult_den 2 1 = 0) = false := by decide
  rw [hd, hfw, hfh]
  refine plot_all_some 50 25 _ ?_ (fb.clear, zbuf.clear) (fb_clear_WF fb hfb)
    (zbuf_clear_WF zbuf hzb) hfw hfh hzw hzh
  intro v hv
  obtain ⟨theta, phi, rfl⟩ := samples_mem T fuel 50 25 2 1 5 angle_step_theta angle_step_phi
    rot_x rot_z v hv
  obtain ⟨b1, b2, b3, b4⟩ := main_screen_bounds T hT rot_x rot_z theta phi
  have hz : ((2 : Nat) : K) + ((1 : Nat) : K) < 5 := by norm_num
  obtain ⟨hpos, _⟩ := sample_ooz_pos T hT 50 25 2 1 5 rot_x rot_z theta phi hz
  obtain ⟨l0, l1⟩ := sample_luminance_index_le T hT 50 25 2 1 5 rot_x rot_z theta phi
  refine ⟨ne_of_gt hpos, ?_, ?_, ?_, ?_, l0, l1⟩
  · unfold in_int; constructor <;> omega
  · unfold in_int; constructor <;> omega
  · simp only [Sample.cell]
    rw [to_unsigned_of_nonneg _ (by omega) (by omega)]; omega
  · simp only [Sample.cell]
    rw [to_unsigned_of_nonneg _ b3 (by omega)]; omega

theorem ramp_at_eq_at_sign (i : Int) (h : ramp_at i = some '@') : i = 11 := by
  unfold ramp_at at h
  split at h
  · rename_i h0
    obtain ⟨n, rfl⟩ := Int.eq_ofNat_of_zero_le h0
    simp only [Int.toNat_ofNat] at h
    have hn : n < 13 := by
      by_contra hc
      rw [List.getElem?_eq_none (by simpa [ramp] using not_lt.mp hc)] at h
      exact absurd h (by simp)
    have : n = 11 := by
      interval_cases n <;> first | rfl | (exact absurd h (by decide))
    rw [this]; rfl
  · exact absurd h (by simp)

theorem le_of_luminance_index_eq_eleven (l : K) (h : luminance_index l = 11) :
    11 / 8 ≤ l := by
  rcases lt_or_le l 0 with h0 | h0
  · rw [luminance_index_of_nonpos l h0.le] at h
    exact absurd h (by norm_num)
  · rw [luminance_index_of_nonneg l h0] at h
    have h1 : ((11 : Int) : K) ≤ l * 8 := Int.le_floor.mp (le_of_eq h.symm)
    push_cast at h1
    linarith

theorem fb_create_WF (w h : Nat) (hw : w < UINT_MOD) (hh : h < UINT_MOD)
    (hwh : w * h < UINT_MOD) : (Fb.create w h).WF := by
  refine ⟨hw, hh, hwh, ?_⟩
  have hc : Fb.cells w h = w * h := Nat.mod_eq_of_lt hwh
  simp [Fb.create, Fb.clear, hc]

omit [FloorRing K] in
theorem zbuf_create_WF (junk : K) (w h : Nat) (hw : w < UINT_MOD) (hh : h < UINT_MOD)
    (hwh : w * h < UINT_MOD) : (ZBuf.create junk w h).WF := by
  refine ⟨hw, hh, hwh, ?_⟩
  have hc : Fb.cells w h = w * h := Nat.mod_eq_of_lt hwh
  simp [ZBuf.create, ZBuf.clear, hc]

/-- With the steps `0.02` of `main` the loops over the real angles end within
`315` iterations. -/
theorem main_loop_bound : 2 * Real.pi ≤ ((315 : Nat) : ℝ) * (1 / 50) := by
  have := Real.pi_lt_d2
  norm_num at this ⊢
  linarith

/-- A run of `draw_torus` on a `2 × 1` screen with a library whose `sin` is
constantly `0` and `cos` constantly `1`: the four samples coincide, the first
is plotted and the three of equal depth that follow are rejected. -/
theorem draw_torus_tie_run :
    draw_torus (⟨fun _ => 0, fun _ => 1, 3⟩ : Libm Rat) 3 ⟨2, 1, ['a', 'b']⟩ ⟨2, 1, [1, 2]⟩
      2 1 5 4 4 0 0 = some (⟨2, 1, [' ', '.']⟩, ⟨2, 1, [0, 1 / 5]⟩) := by
  have hden : mult_den 2 1 = 24 := by decide
  have hsx : f2i ((7 : Rat) / 4) = 1 := by norm_num [f2i, Int.floor_eq_iff]
  have hsy : f2i ((1 : Rat) / 2) = 0 := by norm_num [f2i, Int.floor_eq_iff]
  have hs : ∀ t p : Rat,
      sample (⟨fun _ => 0, fun _ => 1, 3⟩ : Libm Rat) 2 1 2 1 5 0 0 t p =
      sample (⟨fun _ => 0, fun _ => 1, 3⟩ : Libm Rat) 2 1 2 1 5 0 0 0 0 := fun _ _ => rfl
  have h1 : (sample (⟨fun _ => 0, fun _ => 1, 3⟩ : Libm Rat) 2 1 2 1 5 0 0 0 0).torus_z3 = 5 := by
    norm_num [sample]
  have h2 : (sample (⟨fun _ => 0, fun _ => 1, 3⟩ : Libm Rat) 2 1 2 1 5 0 0 0 0).ooz = 1 / 5 := by
    norm_num [sample]
  have h3 : (sample (⟨fun _ => 0, fun _ => 1, 3⟩ : Libm Rat) 2 1 2 1 5 0 0 0 0).screen_x = 1 := by
    rw [← hsx]; simp only [sample, hden]; congr 1; norm_num
  have h4 : (sample (⟨fun _ => 0, fun _ => 1, 3⟩ : Libm Rat) 2 1 2 1 5 0 0 0 0).screen_y = 0 := by
    rw [← hsy]; simp only [sample, hden]; congr 1; norm_num
  have h5 : (sample (⟨fun _ => 0, fun _ => 1, 3⟩ : Libm Rat) 2 1 2 1 5 0 0 0 0).luminance = 0 := by
    norm_num [sample]
  have hli : luminance_index (0 : Rat) = 0 := by norm_num [luminance_index, f2i]
  have hp1 : plot (decide (mult_den 2 1 = 0))
      (sample (⟨fun _ => 0, fun _ => 1, 3⟩ : Libm Rat) 2 1 2 1 5 0 0 0 0)
      (⟨2, 1, [' ', ' ']⟩, ⟨2, 1, [0, 0]⟩) =
      some (⟨2, 1, [' ', '.']⟩, ⟨2, 1, [0, 1 / 5]⟩) := by
    simp only [plot, h1, h2, h3, h4, h5, hli, hden]
    norm_num [in_int, to_unsigned, ZBuf.set, ZBuf.get, UINT_MOD, ramp_at, ramp, Fb.set]
  have hp2 : plot (decide (mult_den 2 1 = 0))
      (sample (⟨fun _ => 0, fun _ => 1, 3⟩ : Libm Rat) 2 1 2 1 5 0 0 0 0)
      (⟨2, 1, [' ', '.']⟩, ⟨2, 1, [0, 1 / 5]⟩) =
      some (⟨2, 1, [' ', '.']⟩, ⟨2, 1, [0, 1 / 5]⟩) := by
    simp only [plot, h1, h2, h3, h4, h5, hli, hden]
    norm_num [in_int, to_unsigned, ZBuf.set, ZBuf.get, UINT_MOD, ramp_at, ramp, Fb.set]
  have hclear : (Fb.clear ⟨2, 1, ['a', 'b']⟩, ZBuf.clear (⟨2, 1, [1, 2]⟩ : ZBuf Rat)) =
      (⟨2, 1, [' ', ' ']⟩, ⟨2, 1, [0, 0]⟩) := by
    simp [Fb.clear, ZBuf.clear, Fb.cells, UINT_MOD, List.replicate]
  simp only [draw_torus, hclear]
  norm_num [theta_loop, phi_loop, draw_sample, hs, hp1, hp2]

/-! ### The frame of `main` at rotation zero -/

omit [FloorRing K] in
theorem angles_mem (T : Libm K) (step : K) (hstep : 0 ≤ step) (fuel : Nat) :
    ∀ (k : Nat) (a : K), k < fuel → a + k * step < 2 * T.M_PI →
    a + k * step ∈ angles T step fuel a := by
  induction fuel with
  | zero => intro k _ hk; exact absurd hk (Nat.not_lt_zero k)
  | succ fuel ih =>
    intro k a hk h
    have ha : a < 2 * T.M_PI :=
      lt_of_le_of_lt (le_add_of_nonneg_right (mul_nonneg (Nat.cast_nonneg k) hstep)) h
    simp only [angles, ha, if_true]
    cases k with
    | zero => simp
    | succ j =>
      have e : a + ((j + 1 : Nat) : K) * step = a + step + j * step := by push_cast; ring
      rw [e] at h ⊢
      exact List.mem_cons_of_mem _ (ih j (a + step) (by omega) h)

theorem lt_of_f2i_le (v : K) (n : Int) (h : f2i v ≤ n) : v < (n : K) + 1 := by
  unfold f2i at h
  split at h
  · have h1 : v < (⌊v⌋ : K) + 1 := Int.lt_floor_add_one v
    have h2 : (⌊v⌋ : K) ≤ (n : K) := by exact_mod_cast h
    linarith
  · have h1 : v ≤ (⌈v⌉ : K) := Int.le_ceil v
    have h2 : (⌈v⌉ : K) ≤ (n : K) := by exact_mod_cast h
    linarith

theorem le_of_le_f2i (v : K) (n : Int) (hn : 0 < n) (h : n ≤ f2i v) : (n : K) ≤ v := by
  unfold f2i at h
  split at h
  · have h1 : (⌊v⌋ : K) ≤ v := Int.floor_le v
    have h2 : (n : K) ≤ (⌊v⌋ : K) := by exact_mod_cast h
    linarith
  · rename_i hv
    have h1 : ⌈v⌉ ≤ 0 := Int.ceil_le.mpr (by push_cast; exact le_of_lt (not_le.mp hv))
    omega

theorem ramp_at_ne_dot (i : Int) (c : Char) (hi : 1 ≤ i) (h : ramp_at i = some c) :
    c ≠ '.' := by
  unfold ramp_at at h
  split at h
  · rename_i h0
    obtain ⟨n, rfl⟩ := Int.eq_ofNat_of_zero_le h0
    simp only [Int.toNat_ofNat] at h
    have hn : n < 13 := by
      by_contra hc
      rw [List.getElem?_eq_none (by simpa [ramp] using not_lt.mp hc)] at h
      exact absurd h (by simp)
    have hn1 : 1 ≤ n := by omega
    interval_cases n <;>
      (obtain rfl := Option.some.inj h; decide)
  · exact absurd h (by simp)

theorem ramp_at_zero : ramp_at 0 = some '.' := by decide

end Plot

/-! ### Real angles -/

theorem upper_rows_luminance (s c S : ℝ) (hφ : s ^ 2 + c ^ 2 = 1) (hS : S ^ 2 ≤ 1)
    (hrow : 36 / 125 * (5 - (2 + c) * S) < s) : 1 / 8 ≤ s + S * c := by
  have hc1 : c ≤ 1 := by nlinarith [sq_nonneg s, sq_nonneg (c - 1)]
  have hc2 : -1 ≤ c := by nlinarith [sq_nonneg s, sq_nonneg (c + 1)]
  have hS1 : S ≤ 1 := by nlinarith [sq_nonneg (S - 1)]
  have hS2 : -1 ≤ S := by nlinarith [sq_nonneg (S + 1)]
  have h1 : (2 + c) * S ≤ 2 + c := by nlinarith
  have hs : 36 / 125 * (3 - c) < s := by linarith
  have hs1 : s ≤ 1 := by nlinarith [sq_nonneg c, sq_nonneg (s - 1)]
  have hSpos : 0 < S := by
    by_contra hneg
    have : S ≤ 0 := not_lt.mp hneg
    nlinarith
  rcases le_or_lt 0 c with h0 | h0
  · nlinarith
  · have : c ≤ S * c := by nlinarith
    nlinarith

theorem lower_rows_luminance (s c S : ℝ) (hφ : s ^ 2 + c ^ 2 = 1) (hS : S ^ 2 ≤ 1)
    (hrow : s ≤ -(36 / 125) * (5 - (2 + c) * S)) : s + S * c < 1 / 8 := by
  have hc1 : c ≤ 1 := by nlinarith [sq_nonneg s, sq_nonneg (c - 1)]
  have hc2 : -1 ≤ c := by nlinarith [sq_nonneg s, sq_nonneg (c + 1)]
  have hS1 : S ≤ 1 := by nlinarith [sq_nonneg (S - 1)]
  have hS2 : -1 ≤ S := by nlinarith [sq_nonneg (S + 1)]
  have h1 : (2 + c) * S ≤ 2 + c := by nlinarith
  have hs : s ≤ -(36 / 125) * (3 - c) := by linarith
  have hs1 : -1 ≤ s := by nlinarith [sq_nonneg c, sq_nonneg (s + 1)]
  have hSpos : 0 < S := by
    by_contra hneg
    have : S ≤ 0 := not_lt.mp hneg
    nlinarith
  rcases le_or_lt c 0 with h0 | h0
  · have : S * c ≤ 0 := by nlinarith
    nlinarith
  · have h2 : S * c ≤ c := by nlinarith
    have hneg : -s ≥ 36 / 125 * (3 - c) := by linarith
    have hsq : s ^ 2 ≥ (36 / 125 * (3 - c)) ^ 2 := by nlinarith
    by_contra hcon
    have hge : 1 / 8 ≤ s + S * c := not_lt.mp hcon
    have hc3 : 1 / 8 + 36 / 125 * (3 - c) ≤ c := by linarith
    nlinarith

theorem sin_theta0_ge : 99 / 100 ≤ Real.sin (79 / 50) := by
  have h1 := Real.pi_gt_d2
  have h2 := Real.pi_lt_d2
  rw [← Real.cos_sub_pi_div_two]
  have h := Real.one_sub_sq_div_two_le_cos (x := 79 / 50 - Real.pi / 2)
  norm_num at h1 h2
  nlinarith [sq_nonneg (79 / 50 - Real.pi / 2)]

theorem sin_phi0_ge : 9 / 10 ≤ Real.sin (62 / 50) := by
  have h1 := Real.pi_gt_d2
  have h2 := Real.pi_lt_d2
  rw [← Real.cos_sub_pi_div_two]
  have h := Real.one_sub_sq_div_two_le_cos (x := 62 / 50 - Real.pi / 2)
  norm_num at h1 h2
  nlinarith [sq_nonneg (62 / 50 - Real.pi / 2)]

theorem cos_phi0_ge : 3 / 10 ≤ Real.cos (62 / 50) := by
  have h1 := Real.pi_gt_d2
  have h2 := Real.pi_lt_d2
  norm_num at h1 h2
  rw [← Real.sin_pi_div_two_sub]
  have hx0 : 0 < Real.pi / 2 - 62 / 50 := by linarith
  have hx1 : Real.pi / 2 - 62 / 50 ≤ 1 := by linarith
  have h := Real.sin_gt_sub_cube hx0 hx1
  have hlo : 33 / 100 ≤ Real.pi / 2 - 62 / 50 := by linarith
  have hhi : Real.pi / 2 - 62 / 50 ≤ 335 / 1000 := by linarith
  have hcube : (Real.pi / 2 - 62 / 50) ^ 3 ≤ (335 / 1000) ^ 3 :=
    pow_le_pow_left₀ (le_of_lt hx0) hhi 3
  nlinarith

/-- With the constants of `main` and no rotation the luminance of the sample
at `(theta, phi)` is `sin phi + sin theta cos phi` and its row is the
truncation of `12.5 - 15.625 sin phi / (5 - (2 + cos phi) sin theta)`. -/
theorem main_rot0_sample (theta phi : ℝ) :
    (sample ⟨Real.sin, Real.cos, Real.pi⟩ 50 25 2 1 5 0 0 theta phi).luminance =
      Real.sin phi + Real.sin theta * Real.cos phi ∧
    (sample ⟨Real.sin, Real.cos, Real.pi⟩ 50 25 2 1 5 0 0 theta phi).screen_y =
      f2i (25 / 2 - 125 / 8 *
        (Real.sin phi / (5 - (2 + Real.cos phi) * Real.sin theta))) := by
  have hden : mult_den 2 1 = 24 := by decide
  constructor
  · simp only [sample, Real.sin_zero, Real.cos_zero]
    ring
  · simp only [sample, hden, Real.sin_zero, Real.cos_zero]
    congr 1
    push_cast
    have e : (5 : ℝ) + ((2 + 1 * Real.cos phi) * -Real.sin theta * 1 -
        1 * Real.sin phi * 0) = 5 - (2 + Real.cos phi) * Real.sin theta := by ring
    rw [e]
    ring

theorem main_rot0_depth_pos (theta phi : ℝ) :
    0 < 5 - (2 + Real.cos phi) * Real.sin theta := by
  have h1 := Real.sin_le_one theta
  have h2 := Real.neg_one_le_sin theta
  have h3 := Real.cos_le_one phi
  have h4 := Real.neg_one_le_cos phi
  nlinarith

/-- With the constants of `main` and no rotation a sample of the rows `0..7`
has a luminance index of at least `1`, and a sample of the rows `17..24` has
the luminance index `0`. -/
theorem main_rot0_rows (theta phi : ℝ) :
    ((sample ⟨Real.sin, Real.cos, Real.pi⟩ 50 25 2 1 5 0 0 theta phi).screen_y ≤ 7 →
      1 ≤ luminance_index (sample ⟨Real.sin, Real.cos, Real.pi⟩ 50 25 2 1 5 0 0 theta phi).luminance) ∧
    (17 ≤ (sample ⟨Real.sin, Real.cos, Real.pi⟩ 50 25 2 1 5 0 0 theta phi).screen_y →
      luminance_index (sample ⟨Real.sin, Real.cos, Real.pi⟩ 50 25 2 1 5 0 0 theta phi).luminance = 0) := by
  obtain ⟨hl, hy⟩ := main_rot0_sample theta phi
  have hD := main_rot0_depth_pos theta phi
  have hφ := Real.sin_sq_add_cos_sq phi
  have hS : Real.sin theta ^ 2 ≤ 1 := Real.sin_sq_le_one theta
  rw [hl, hy]
  constructor
  · intro h
    have h1 := lt_of_f2i_le _ 7 h
    have h2 : 36 / 125 < Real.sin phi / (5 - (2 + Real.cos phi) * Real.sin theta) := by
      push_cast at h1; linarith
    have h3 : 36 / 125 * (5 - (2 + Real.cos phi) * Real.sin theta) < Real.sin phi :=
      (lt_div_iff₀ hD).mp h2
    have h4 := upper_rows_luminance _ _ _ hφ hS h3
    have h5 : 0 ≤ Real.sin phi + Real.sin theta * Real.cos phi := by linarith
    rw [luminance_index_of_nonneg _ h5]
    exact Int.le_floor.mpr (by push_cast; linarith)
  · intro h
    have h1 := le_of_le_f2i _ 17 (by norm_num) h
    have h2 : Real.sin phi / (5 - (2 + Real.cos phi) * Real.sin theta) ≤ -(36 / 125) := by
      push_cast at h1; linarith
    have h3 : Real.sin phi ≤ -(36 / 125) * (5 - (2 + Real.cos phi) * Real.sin theta) :=
      (div_le_iff₀ hD).mp h2
    have h4 := lower_rows_luminance _ _ _ hφ hS h3
    rcases lt_or_le (Real.sin phi + Real.sin theta * Real.cos phi) 0 with h5 | h5
    · exact luminance_index_of_nonpos _ h5.le
    · rw [luminance_index_of_nonneg _ h5]
      exact Int.floor_eq_iff.mpr ⟨by push_cast; linarith, by push_cast; linarith⟩

/-- The sample at `theta = 79 * 0.02`, `phi = 62 * 0.02` lies in the rows
`0..7`. -/
theorem main_rot0_upper_sample :
    (sample ⟨Real.sin, Real.cos, Real.pi⟩ 50 25 2 1 5 0 0 (0 + ((79 : Nat) : ℝ) * (1 / 50))
      (0 + ((62 : Nat) : ℝ) * (1 / 50))).screen_y ≤ 7 := by
  have e1 : (0 : ℝ) + ((79 : Nat) : ℝ) * (1 / 50) = 79 / 50 := by norm_num
  have e2 : (0 : ℝ) + ((62 : Nat) : ℝ) * (1 / 50) = 62 / 50 := by norm_num
  rw [e1, e2, (main_rot0_sample _ _).2]
  have hs := sin_phi0_ge
  have hc := cos_phi0_ge
  have hS := sin_theta0_ge
  have hS1 := Real.sin_le_one (79 / 50)
  have hc1 := Real.cos_le_one (62 / 50)
  have hD := main_rot0_depth_pos (79 / 50) (62 / 50)
  have hq : 3 / 10 ≤ Real.sin (62 / 50) /
      (5 - (2 + Real.cos (62 / 50)) * Real.sin (79 / 50)) := by
    rw [le_div_iff₀ hD]; nlinarith
  have hlt : 25 / 2 - 125 / 8 * (Real.sin (62 / 50) /
      (5 - (2 + Real.cos (62 / 50)) * Real.sin (79 / 50))) < ((7 : Int) : ℝ) + 1 := by
    push_cast; linarith
  unfold f2i
  split
  · have := Int.floor_lt.mpr (show 25 / 2 - 125 / 8 * (Real.sin (62 / 50) /
        (5 - (2 + Real.cos (62 / 50)) * Real.sin (79 / 50))) < ((8 : Int) : ℝ) by
      push_cast; linarith)
    omega
  · rename_i hneg
    have : ⌈25 / 2 - 125 / 8 * (Real.sin (62 / 50) /
        (5 - (2 + Real.cos (62 / 50)) * Real.sin (79 / 50)))⌉ ≤ 0 :=
      Int.ceil_le.mpr (by push_cast; exact le_of_lt (not_le.mp hneg))
    omega


/-- The frame `draw_torus` renders with the constants of `main`, the steps
`0.02` and no rotation: the run completes; the rows `17..24` hold only the
blank or `.`; the rows `0..7` never hold `.` and have a cell that is not
blank; hence some cell differs from its mirror image. -/
theorem main_rot0_frame (fb : Fb) (zbuf : ZBuf ℝ) (hfb : fb.WF) (hzb : zbuf.WF)
    (hfw : fb.width = 50) (hfh : fb.height = 25) (hzw : zbuf.width = 50)
    (hzh : zbuf.height = 25) (fuel : Nat) (hfuel : 316 ≤ fuel) :
    ∃ fb1 zb1,
      draw_torus ⟨Real.sin, Real.cos, Real.pi⟩ fuel fb zbuf 2 1 5 (1 / 50) (1 / 50) 0 0 = some (fb1, zb1) ∧
      (∀ x y, x < 50 → 17 ≤ y → y < 25 →
        fb1.get x y = some ' ' ∨ fb1.get x y = some '.') ∧
      (∀ x y, x < 50 → y ≤ 7 → fb1.get x y ≠ some '.') ∧
      (∃ x y c, x < 50 ∧ y ≤ 7 ∧ fb1.get x y = some c ∧ c ≠ ' ') ∧
      (∃ x y, x < 50 ∧ y < 25 ∧ fb1.get x y ≠ fb1.get x (24 - y)) := by
  have hT : ∀ t : ℝ, (Libm.mk Real.sin Real.cos Real.pi).sin t ^ 2 +
      (Libm.mk Real.sin Real.cos Real.pi).cos t ^ 2 = 1 := fun t => Real.sin_sq_add_cos_sq t
  obtain ⟨r, hrun⟩ := main_draw_torus_completes _ hT fuel 315 315 (by omega) (by omega) fb
    zbuf hfb hzb hfw hfh hzw hzh (1 / 50) (1 / 50) 0 0 main_loop_bound main_loop_bound
  have hz : ((2 : Nat) : ℝ) + ((1 : Nat) : ℝ) < 5 := by norm_num
  -- the row of a sample, as a natural number
  have hrow : ∀ (v : Sample ℝ) (x y : Nat),
      v ∈ samples ⟨Real.sin, Real.cos, Real.pi⟩ fuel 50 25 2 1 5 (1 / 50) (1 / 50) 0 0 → v.cell = (x, y) →
      v.screen_y = (y : Int) ∧
      ((y ≤ 7 → 1 ≤ luminance_index v.luminance) ∧
        (17 ≤ y → luminance_index v.luminance = 0)) := by
    intro v x y hv hc
    obtain ⟨theta, phi, rfl⟩ := samples_mem _ fuel 50 25 2 1 5 (1 / 50) (1 / 50) 0 0 v hv
    obtain ⟨_, _, b3, b4⟩ := main_screen_bounds _ hT 0 0 theta phi
    have hy : to_unsigned (sample ⟨Real.sin, Real.cos, Real.pi⟩ 50 25 2 1 5 0 0 theta phi).screen_y = y :=
      congrArg Prod.snd hc
    rw [to_unsigned_of_nonneg _ b3 (by omega)] at hy
    have hyi : (sample ⟨Real.sin, Real.cos, Real.pi⟩ 50 25 2 1 5 0 0 theta phi).screen_y = (y : Int) := by omega
    obtain ⟨r1, r2⟩ := main_rot0_rows theta phi
    exact ⟨hyi, fun h7 => r1 (by omega), fun h17 => r2 (by omega)⟩
  have hchar := fun x y hx hy => draw_torus_cell_char _ hT fuel fb zbuf hfb hzb 2 1 5
    (1 / 50) (1 / 50) 0 0 hz r hrun x y (hfw ▸ hx) (hfh ▸ hy)
  rw [hfw, hfh] at hchar
  have hlow : ∀ x y, x < 50 → 17 ≤ y → y < 25 →
      r.1.get x y = some ' ' ∨ r.1.get x y = some '.' := by
    intro x y hx h17 hy
    rcases hchar x y hx hy with hb | ⟨pre, s, post, c, hS, hs, _, _, _, hc, hfg⟩
    · exact Or.inl hb
    · right
      have hmem : s ∈ samples ⟨Real.sin, Real.cos, Real.pi⟩ fuel 50 25 2 1 5 (1 / 50) (1 / 50) 0 0 := by
        rw [hS]; simp
      rw [((hrow s x y hmem hs).2.2 h17), ramp_at_zero] at hc
      rw [hfg, ← Option.some.inj hc]
  have hup : ∀ x y, x < 50 → y ≤ 7 → r.1.get x y ≠ some '.' := by
    intro x y hx h7
    rcases hchar x y hx (by omega) with hb | ⟨pre, s, post, c, hS, hs, _, _, _, hc, hfg⟩
    · rw [hb]; decide
    · have hmem : s ∈ samples ⟨Real.sin, Real.cos, Real.pi⟩ fuel 50 25 2 1 5 (1 / 50) (1 / 50) 0 0 := by
        rw [hS]; simp
      have hne := ramp_at_ne_dot _ c ((hrow s x y hmem hs).2.1 h7) hc
      rw [hfg]
      exact fun e => hne (Option.some.inj e)
  -- the sample of the upper rows
  have hv0 : sample ⟨Real.sin, Real.cos, Real.pi⟩ 50 25 2 1 5 0 0 (0 + ((79 : Nat) : ℝ) * (1 / 50))
      (0 + ((62 : Nat) : ℝ) * (1 / 50)) ∈
      samples ⟨Real.sin, Real.cos, Real.pi⟩ fuel 50 25 2 1 5 (1 / 50) (1 / 50) 0 0 := by
    have hpi := Real.pi_gt_three
    simp only [samples, List.mem_flatMap, List.mem_map]
    refine ⟨_, angles_mem _ (1 / 50) (by norm_num) fuel 79 0 (by omega) ?_, _,
      angles_mem _ (1 / 50) (by norm_num) fuel 62 0 (by omega) ?_, rfl⟩
    · show (0 : ℝ) + ((79 : Nat) : ℝ) * (1 / 50) < 2 * Real.pi
      norm_num; linarith
    · show (0 : ℝ) + ((62 : Nat) : ℝ) * (1 / 50) < 2 * Real.pi
      norm_num; linarith
  obtain ⟨d, c, hres, _, hfget, hin⟩ := draw_torus_cells _ hT fuel fb zbuf hfb hzb 2 1 5
    (1 / 50) (1 / 50) 0 0 hz r hrun
    (sample ⟨Real.sin, Real.cos, Real.pi⟩ 50 25 2 1 5 0 0 (0 + ((79 : Nat) : ℝ) * (1 / 50))
      (0 + ((62 : Nat) : ℝ) * (1 / 50))).cell.1
    (sample ⟨Real.sin, Real.cos, Real.pi⟩ 50 25 2 1 5 0 0 (0 + ((79 : Nat) : ℝ) * (1 / 50))
      (0 + ((62 : Nat) : ℝ) * (1 / 50))).cell.2
  rw [hfw, hfh] at hres hfget hin
  obtain ⟨_, hfin⟩ := hin ⟨_, hv0, rfl⟩
  have hy0 := (hrow _
    (sample ⟨Real.sin, Real.cos, Real.pi⟩ 50 25 2 1 5 0 0 (0 + ((79 : Nat) : ℝ) * (1 / 50))
      (0 + ((62 : Nat) : ℝ) * (1 / 50))).cell.1
    (sample ⟨Real.sin, Real.cos, Real.pi⟩ 50 25 2 1 5 0 0 (0 + ((79 : Nat) : ℝ) * (1 / 50))
      (0 + ((62 : Nat) : ℝ) * (1 / 50))).cell.2 hv0 rfl).1
  have hy7 : (sample ⟨Real.sin, Real.cos, Real.pi⟩ 50 25 2 1 5 0 0 (0 + ((79 : Nat) : ℝ) * (1 / 50))
      (0 + ((62 : Nat) : ℝ) * (1 / 50))).cell.2 ≤ 7 := by
    have := main_rot0_upper_sample
    omega
  have hc0 : c ≠ ' ' := by
    rcases hres with ⟨hno, _, _⟩ | ⟨_, s, _, _, _, _, _, _, hc⟩
    · exact absurd rfl (hno _ hv0)
    · exact ramp_at_ne_blank _ c hc
  have hg0 := hfget hfin.1 hfin.2
  refine ⟨r.1, r.2, hrun, hlow, hup, ⟨_, _, c, hfin.1, hy7, hg0, hc0⟩,
    ⟨_, _, hfin.1, hfin.2, ?_⟩⟩
  intro e
  rcases hlow _ (24 - (sample ⟨Real.sin, Real.cos, Real.pi⟩ 50 25 2 1 5 0 0 (0 + ((79 : Nat) : ℝ) * (1 / 50))
      (0 + ((62 : Nat) : ℝ) * (1 / 50))).cell.2) hfin.1 (by omega) (by omega) with h | h
  · rw [← e, hg0] at h
    exact hc0 (Option.some.inj h)
  · rw [← e] at h
    exact hup _ _ hfin.1 hy7 h

/-! ## Claims on the buffers -/

/-- C4, as stated, fails where the `unsigned int` product `width * height`
wraps: a `65536 × 65537` framebuffer gets a block of `65536` cells, and the
in-bounds cell `(0, 1)` lies outside it, after construction and after `clear()`
alike; the same holds for the depth buffer. -/
theorem clear_wrapped_dimensions_counterexample :
    (0 < 65536 ∧ 1 < 65537) ∧
    (Fb.create 65536 65537).get 0 1 ≠ some ' ' ∧
    (Fb.create 65536 65537).clear.get 0 1 ≠ some ' ' ∧
    (ZBuf.create (1 : Rat) 65536 65537).get 0 1 ≠ some 0 ∧
    (ZBuf.create (1 : Rat) 65536 65537).clear.get 0 1 ≠ some 0 := by
  have hc : Fb.cells 65536 65537 ≤ (1 * 65536 + 0) % UINT_MOD := by
    norm_num [Fb.cells, UINT_MOD]
  refine ⟨by decide, ?_, ?_, ?_, ?_⟩
  · rw [fb_get_outside_block _ (le_of_eq_of_le (fb_create_length _ _) hc)]; simp
  · rw [fb_get_outside_block _ (le_of_eq_of_le (fb_clear_create_length _ _) hc)]; simp
  · rw [zbuf_get_outside_block _ (le_of_eq_of_le (zbuf_create_length _ _ _) hc)]; simp
  · rw [zbuf_get_outside_block _ (le_of_eq_of_le (zbuf_clear_create_length _ _ _) hc)]; simp

/-- C4, amended. When `width * height` does not wrap (it is below `2 ^ 32`),
whatever the block held before: after `Fb::clear()` every in-bounds `get(x, y)`
is the space character, after `ZBuf::clear()` every in-bounds `get(x, y)` is
`0.0`, and the same holds after construction of either buffer. -/
theorem clear_and_create_blank {K : Type} [Zero K] (w h : Nat) (hwh : w * h < UINT_MOD)
    (x y : Nat) (hx : x < w) (hy : y < h) :
    (∀ buf : List Char, (Fb.clear ⟨w, h, buf⟩).get x y = some ' ') ∧
    (∀ buf : List K, (ZBuf.clear ⟨w, h, buf⟩).get x y = some 0) ∧
    (Fb.create w h).get x y = some ' ' ∧
    (∀ junk : K, (ZBuf.create junk w h).get x y = some 0) := by
  exact ⟨fun buf => fb_clear_get_blank w h hwh buf x y hx hy,
    fun buf => zbuf_clear_get_zero w h hwh buf x y hx hy,
    fb_clear_get_blank w h hwh _ x y hx hy,
    fun junk => zbuf_clear_get_zero w h hwh _ x y hx hy⟩

/-- C4, amended, for `2 × 2` buffers. -/
theorem clear_and_create_blank_witness :
    (2 * 2 < UINT_MOD ∧ 1 < 2 ∧ 0 < 2) ∧
    (Fb.create 2 2).get 1 0 = some ' ' ∧
    (ZBuf.create (7 : Rat) 2 2).get 1 0 = some 0 :=
  ⟨by simp [UINT_MOD],
   (clear_and_create_blank (K := Rat) 2 2 (by simp [UINT_MOD]) 1 0 (by decide) (by decide)).2.2.1,
   (clear_and_create_blank 2 2 (by simp [UINT_MOD]) 1 0 (by decide) (by decide)).2.2.2 7⟩

/-- C8. For every `r1`, `r2` and `z_offset` with `z_offset > r1 + r2` and all real
angles, the camera-space depth `torus_z3` is at least `z_offset - (r1 + r2)`,
hence strictly positive: the division `ooz = 1 / torus_z3` has a non-zero
divisor and `ooz` is strictly positive. -/
theorem torus_z3_positive (width height r1 r2 : Nat) (z_offset rot_x rot_z theta phi : ℝ)
    (hz : (r1 : ℝ) + (r2 : ℝ) < z_offset) :
    z_offset - ((r1 : ℝ) + (r2 : ℝ)) ≤
      (sample ⟨Real.sin, Real.cos, Real.pi⟩ width height r1 r2 z_offset rot_x rot_z
        theta phi).torus_z3 ∧
    0 < (sample ⟨Real.sin, Real.cos, Real.pi⟩ width height r1 r2 z_offset rot_x rot_z
        theta phi).torus_z3 ∧
    (sample ⟨Real.sin, Real.cos, Real.pi⟩ width height r1 r2 z_offset rot_x rot_z
        theta phi).ooz =
      1 / (sample ⟨Real.sin, Real.cos, Real.pi⟩ width height r1 r2 z_offset rot_x rot_z
        theta phi).torus_z3 ∧
    0 < (sample ⟨Real.sin, Real.cos, Real.pi⟩ width height r1 r2 z_offset rot_x rot_z
        theta phi).ooz := by
  have hT : ∀ t : ℝ, (Libm.mk Real.sin Real.cos Real.pi).sin t ^ 2 +
      (Libm.mk Real.sin Real.cos Real.pi).cos t ^ 2 = 1 := fun t => Real.sin_sq_add_cos_sq t
  have h1 := sample_torus_z3_ge _ hT width height r1 r2 z_offset rot_x rot_z theta phi
  have h2 := sample_ooz_pos _ hT width height r1 r2 z_offset rot_x rot_z theta phi hz
  exact ⟨h1, h2.1, rfl, h2.2⟩

/-- C8 with the constants of `main` and the angles `1`, `2`, `3`, `4`. -/
theorem torus_z3_positive_witness :
    ((2 : ℕ) : ℝ) + ((1 : ℕ) : ℝ) < 5 ∧
    0 < (sample ⟨Real.sin, Real.cos, Real.pi⟩ 50 25 2 1 5 1 2 3 4).torus_z3 :=
  ⟨by norm_num, (torus_z3_positive 50 25 2 1 5 1 2 3 4 (by norm_num)).2.1⟩

/-- C7. With the constants of `main` (width 50, height 25, `r1 = 2`, `r2 = 1`,
`z_offset = 5`) and for all real `theta`, `phi`, `rot_x`, `rot_z`, the screen
coordinates satisfy `0 ≤ screen_x < 50` and `0 ≤ screen_y < 25`, and so do the
`unsigned int` arguments they become: the conditions asserted by `ZBuf::set`
and `Fb::set` hold for every sample. -/
theorem main_screen_coordinates_in_bounds (rot_x rot_z theta phi : ℝ) :
    0 ≤ (sample ⟨Real.sin, Real.cos, Real.pi⟩ 50 25 2 1 5 rot_x rot_z theta phi).screen_x ∧
    (sample ⟨Real.sin, Real.cos, Real.pi⟩ 50 25 2 1 5 rot_x rot_z theta phi).screen_x < 50 ∧
    0 ≤ (sample ⟨Real.sin, Real.cos, Real.pi⟩ 50 25 2 1 5 rot_x rot_z theta phi).screen_y ∧
    (sample ⟨Real.sin, Real.cos, Real.pi⟩ 50 25 2 1 5 rot_x rot_z theta phi).screen_y < 25 ∧
    to_unsigned
      (sample ⟨Real.sin, Real.cos, Real.pi⟩ 50 25 2 1 5 rot_x rot_z theta phi).screen_x < 50 ∧
    to_unsigned
      (sample ⟨Real.sin, Real.cos, Real.pi⟩ 50 25 2 1 5 rot_x rot_z theta phi).screen_y < 25 := by
  have hT : ∀ t : ℝ, (Libm.mk Real.sin Real.cos Real.pi).sin t ^ 2 +
      (Libm.mk Real.sin Real.cos Real.pi).cos t ^ 2 = 1 := fun t => Real.sin_sq_add_cos_sq t
  obtain ⟨h1, h2, h3, h4⟩ := main_screen_bounds _ hT rot_x rot_z theta phi
  refine ⟨by omega, by omega, h3, by omega, ?_, ?_⟩
  · rw [to_unsigned_of_nonneg _ (by omega) (by omega)]; omega
  · rw [to_unsigned_of_nonneg _ h3 (by omega)]; omega

/-- C10. With `r1 = 2`, `r2 = 1`, `z_offset = 5` and `theta = phi = rot_x = rot_z = 0`
the torus-local point is `(3, 0, 0)`, the camera-space depth `torus_z3` is `5`
and the inverse depth `ooz` is `1/5`. -/
theorem sample_at_origin (width height : Nat) :
    (sample ⟨Real.sin, Real.cos, Real.pi⟩ width height 2 1 5 0 0 0 0).torus_x = 3 ∧
    (sample ⟨Real.sin, Real.cos, Real.pi⟩ width height 2 1 5 0 0 0 0).torus_y = 0 ∧
    (sample ⟨Real.sin, Real.cos, Real.pi⟩ width height 2 1 5 0 0 0 0).torus_z = 0 ∧
    (sample ⟨Real.sin, Real.cos, Real.pi⟩ width height 2 1 5 0 0 0 0).torus_z3 = 5 ∧
    (sample ⟨Real.sin, Real.cos, Real.pi⟩ width height 2 1 5 0 0 0 0).ooz = 1 / 5 := by
  simp only [sample, Real.sin_zero, Real.cos_zero]
  norm_num

/-- The scale derivation in exact arithmetic: over the reals, when
`8 * (r1 + r2)` does not wrap and `r1 + r2 > 0`, `z_offset > 0`, the formula
`width / 2 + mult_x * ooz * torus_x3` at zero angles has the value
`7/8 * width`. The `float` value the program computes agrees with it only up
to rounding. -/
theorem projection_exact_position (width height r1 r2 : Nat) (z_offset : ℝ)
    (hr : 0 < r1 + r2) (hz : 0 < z_offset) (hden : 8 * (r1 + r2) < UINT_MOD) :
    (width : ℝ) / 2 +
      (sample ⟨Real.sin, Real.cos, Real.pi⟩ width height r1 r2 z_offset 0 0 0 0).mult_x *
      (sample ⟨Real.sin, Real.cos, Real.pi⟩ width height r1 r2 z_offset 0 0 0 0).ooz *
      (sample ⟨Real.sin, Real.cos, Real.pi⟩ width height r1 r2 z_offset 0 0 0 0).torus_x3 =
      7 / 8 * (width : ℝ) := by
  have hd : mult_den r1 r2 = 8 * (r1 + r2) := by
    unfold mult_den
    rw [Nat.mod_eq_of_lt (by omega : r1 + r2 < UINT_MOD), Nat.mod_eq_of_lt hden]
  have hr0 : (0 : ℝ) < (r1 : ℝ) + (r2 : ℝ) := by exact_mod_cast hr
  simp only [sample, hd, Real.sin_zero, Real.cos_zero]
  push_cast
  field_simp
  ring

/-- C11, as stated, fails where the `unsigned int` product `8 * (r1 + r2)`
wraps: with `r1 = 2 ^ 29 + 1`, `r2 = 0`, `z_offset = 1` and width `8` the
divisor of `mult_x` is `8`, and the horizontal position is
`4 + 3 * (2 ^ 29 + 1)`, not `7`. -/
theorem projection_scale_wrapped_counterexample :
    (0 < 536870913 + 0 ∧ (0 : ℝ) < 1) ∧
    ((8 : Nat) : ℝ) / 2 +
      (sample ⟨Real.sin, Real.cos, Real.pi⟩ 8 4 536870913 0 1 0 0 0 0).mult_x *
      (sample ⟨Real.sin, Real.cos, Real.pi⟩ 8 4 536870913 0 1 0 0 0 0).ooz *
      (sample ⟨Real.sin, Real.cos, Real.pi⟩ 8 4 536870913 0 1 0 0 0 0).torus_x3 ≠
    7 / 8 * ((8 : Nat) : ℝ) := by
  have hden : mult_den 536870913 0 = 8 := by decide
  refine ⟨by norm_num, ?_⟩
  simp only [sample, hden, Real.sin_zero, Real.cos_zero]
  norm_num

/-- C11, amended. With the constants of `main` (width `50`, `r1 = 2`, `r2 = 1`,
`z_offset = 5`) the sample at `theta = phi = rot_x = rot_z = 0` has
`mult_x = 31.25`, `ooz = 0.2` and `torus_x3 = r1 + r2 = 3`; its horizontal
position `width / 2 + mult_x * ooz * torus_x3` is `25 + 31.25 * 0.2 * 3 =
43.75`, which is `7/8` of the width, and `screen_x` is `43`, inside the 50
columns. -/
theorem projection_scale :
    (sample ⟨Real.sin, Real.cos, Real.pi⟩ 50 25 2 1 5 0 0 0 0).mult_x = 31.25 ∧
    (sample ⟨Real.sin, Real.cos, Real.pi⟩ 50 25 2 1 5 0 0 0 0).ooz = 0.2 ∧
    (sample ⟨Real.sin, Real.cos, Real.pi⟩ 50 25 2 1 5 0 0 0 0).torus_x3 = 3 ∧
    ((50 : Nat) : ℝ) / 2 +
      (sample ⟨Real.sin, Real.cos, Real.pi⟩ 50 25 2 1 5 0 0 0 0).mult_x *
      (sample ⟨Real.sin, Real.cos, Real.pi⟩ 50 25 2 1 5 0 0 0 0).ooz *
      (sample ⟨Real.sin, Real.cos, Real.pi⟩ 50 25 2 1 5 0 0 0 0).torus_x3 = 25 + 31.25 * 0.2 * 3 ∧
    (25 : ℝ) + 31.25 * 0.2 * 3 = 43.75 ∧
    (43.75 : ℝ) = 7 / 8 * ((50 : Nat) : ℝ) ∧
    (sample ⟨Real.sin, Real.cos, Real.pi⟩ 50 25 2 1 5 0 0 0 0).screen_x = 43 ∧
    to_unsigned (sample ⟨Real.sin, Real.cos, Real.pi⟩ 50 25 2 1 5 0 0 0 0).screen_x < 50 := by
  have hd2 : mult_den 2 1 = 24 := by decide
  have h43 : f2i ((175 : ℝ) / 4) = 43 := by
    norm_num [f2i, Int.floor_eq_iff]
  have hsx : (sample ⟨Real.sin, Real.cos, Real.pi⟩ 50 25 2 1 5 0 0 0 0).screen_x = 43 := by
    rw [← h43]
    simp only [sample, hd2, Real.sin_zero, Real.cos_zero]
    congr 1; norm_num
  refine ⟨?_, ?_, ?_, ?_, by norm_num, by norm_num, hsx, ?_⟩
  · simp only [sample, hd2]; norm_num
  · simp only [sample, Real.sin_zero, Real.cos_zero]; norm_num
  · simp only [sample, Real.sin_zero, Real.cos_zero]; norm_num
  · simp only [sample, hd2, Real.sin_zero, Real.cos_zero]; norm_num
  · rw [hsx]; decide

/-- C15, as stated, fails: `main` passes `r1 = 2` and `r2 = 1`, and in
`circle_x = r1 + r2 * cos_phi`, `circle_y = r2 * sin_phi` the factor of the
cosine and sine is `r2 = 1` and the constant term is `r1 = 2`. At
`phi = pi / 2` the cross-section point is `(2, 1)`, not `(1, 2)`. -/
theorem main_radii_counterexample :
    main.r2 ≠ 2 ∧ main.r1 ≠ 1 ∧
    (sample ⟨Real.sin, Real.cos, Real.pi⟩ main.screen_width main.screen_height main.r1 main.r2
      (main.z_offset ℝ) 0 0 0 (Real.pi / 2)).circle_x ≠ 1 + 2 * Real.cos (Real.pi / 2) ∧
    (sample ⟨Real.sin, Real.cos, Real.pi⟩ main.screen_width main.screen_height main.r1 main.r2
      (main.z_offset ℝ) 0 0 0 (Real.pi / 2)).circle_y ≠ 2 * Real.sin (Real.pi / 2) := by
  refine ⟨by decide, by decide, ?_, ?_⟩ <;>
    simp only [sample, main.r1, main.r2, Real.cos_pi_div_two, Real.sin_pi_div_two] <;>
    norm_num

/-- C15, amended. In the configuration `main` passes to `draw_torus` the tube
radius (the factor of `cos phi` and `sin phi` in `circle_x` and `circle_y`) is
`r2 = 1`, the revolution radius (the constant term of `circle_x`) is `r1 = 2`,
and the camera z-offset is `5`. -/
theorem main_radii {K : Type} [LinearOrderedField K] [FloorRing K] (T : Libm K)
    (fuel : Nat) (fb : Fb) (zbuf : ZBuf K) (rot rot_x rot_z theta phi : K) :
    main.draw T fuel fb zbuf rot =
      draw_torus T fuel fb zbuf 2 1 5 (1 / 50) (1 / 50) (rot * 2) rot ∧
    (sample T fb.width fb.height main.r1 main.r2 (main.z_offset K) rot_x rot_z theta
      phi).circle_x = 2 + 1 * T.cos phi ∧
    (sample T fb.width fb.height main.r1 main.r2 (main.z_offset K) rot_x rot_z theta
      phi).circle_y = 1 * T.sin phi ∧
    (sample T fb.width fb.height main.r1 main.r2 (main.z_offset K) rot_x rot_z theta
      phi).torus_z3 = 5 +
    (sample T fb.width fb.height main.r1 main.r2 (main.z_offset K) rot_x rot_z theta
      phi).torus_z2 := by
  refine ⟨rfl, ?_, ?_, rfl⟩ <;> simp [sample, main.r1, main.r2]

/-- C16. For all real `theta`, `phi`, `rot_x`, `rot_z` the luminance
`n_y3 - n_z3` is at most `sqrt 2`, below `1.5`; the luminance index is in
`0..11`, and the read of the shading string at that index is a read of one of
its twelve characters. -/
theorem luminance_bounded (width height r1 r2 : Nat)
    (z_offset rot_x rot_z theta phi : ℝ) :
    (sample ⟨Real.sin, Real.cos, Real.pi⟩ width height r1 r2 z_offset rot_x rot_z theta phi).luminance ≤ Real.sqrt 2 ∧
    (sample ⟨Real.sin, Real.cos, Real.pi⟩ width height r1 r2 z_offset rot_x rot_z theta phi).luminance < 3 / 2 ∧
    0 ≤ luminance_index (sample ⟨Real.sin, Real.cos, Real.pi⟩ width height r1 r2 z_offset rot_x rot_z theta phi).luminance ∧
    luminance_index (sample ⟨Real.sin, Real.cos, Real.pi⟩ width height r1 r2 z_offset rot_x rot_z theta phi).luminance ≤ 11 ∧
    ∃ c, ramp_at (luminance_index (sample ⟨Real.sin, Real.cos, Real.pi⟩ width height r1 r2 z_offset rot_x rot_z theta phi).luminance) = some c ∧
      ramp[(luminance_index (sample ⟨Real.sin, Real.cos, Real.pi⟩ width height r1 r2 z_offset rot_x rot_z theta phi).luminance).toNat]? = some c := by
  have hT : ∀ t : ℝ, (Libm.mk Real.sin Real.cos Real.pi).sin t ^ 2 +
      (Libm.mk Real.sin Real.cos Real.pi).cos t ^ 2 = 1 := fun t => Real.sin_sq_add_cos_sq t
  obtain ⟨h1, h2⟩ := sample_luminance_sq_le _ hT width height r1 r2 z_offset rot_x rot_z
    theta phi
  obtain ⟨h3, h4⟩ := sample_luminance_index_le _ hT width height r1 r2 z_offset rot_x rot_z
    theta phi
  obtain ⟨c, hc1, hc2, _⟩ := ramp_at_some_of_le_eleven _ h3 h4
  exact ⟨Real.le_sqrt_of_sq_le h1, h2, h3, h4, c, hc1, hc2⟩

/-- C17. For all real angles and every `r1` and `r2 > 0`: the local normal
`(n_x1, n_y1, n_z1)` has length `1` and is `(P - C) / r2` for the surface point
`P = (torus_x, torus_y, torus_z)` and the centre
`C = (r1 cos theta, 0, -r1 sin theta)` of the cross-section; `rotate` is the
map `draw_torus` applies to surface points, sending `P` to
`(torus_x3, torus_y3, torus_z3 - z_offset)`; and the luminance is the dot
product of `(0, 1, -1)` with the image of the normal under `rotate`. -/
theorem normal_is_unit_and_rotated (width height r1 r2 : Nat) (hr2 : 0 < r2)
    (z_offset rot_x rot_z theta phi : ℝ) :
    (sample ⟨Real.sin, Real.cos, Real.pi⟩ width height r1 r2 z_offset rot_x rot_z theta phi).n_x1 ^ 2 + (sample ⟨Real.sin, Real.cos, Real.pi⟩ width height r1 r2 z_offset rot_x rot_z theta phi).n_y1 ^ 2 + (sample ⟨Real.sin, Real.cos, Real.pi⟩ width height r1 r2 z_offset rot_x rot_z theta phi).n_z1 ^ 2 = 1 ∧
    (sample ⟨Real.sin, Real.cos, Real.pi⟩ width height r1 r2 z_offset rot_x rot_z theta phi).n_x1 = ((sample ⟨Real.sin, Real.cos, Real.pi⟩ width height r1 r2 z_offset rot_x rot_z theta phi).torus_x - (r1 : ℝ) * Real.cos theta) / (r2 : ℝ) ∧
    (sample ⟨Real.sin, Real.cos, Real.pi⟩ width height r1 r2 z_offset rot_x rot_z theta phi).n_y1 = ((sample ⟨Real.sin, Real.cos, Real.pi⟩ width height r1 r2 z_offset rot_x rot_z theta phi).torus_y - 0) / (r2 : ℝ) ∧
    (sample ⟨Real.sin, Real.cos, Real.pi⟩ width height r1 r2 z_offset rot_x rot_z theta phi).n_z1 = ((sample ⟨Real.sin, Real.cos, Real.pi⟩ width height r1 r2 z_offset rot_x rot_z theta phi).torus_z - -((r1 : ℝ) * Real.sin theta)) / (r2 : ℝ) ∧
    ((sample ⟨Real.sin, Real.cos, Real.pi⟩ width height r1 r2 z_offset rot_x rot_z theta phi).torus_x3, (sample ⟨Real.sin, Real.cos, Real.pi⟩ width height r1 r2 z_offset rot_x rot_z theta phi).torus_y3, (sample ⟨Real.sin, Real.cos, Real.pi⟩ width height r1 r2 z_offset rot_x rot_z theta phi).torus_z3 - z_offset) =
      rotate (Real.sin rot_x) (Real.cos rot_x) (Real.sin rot_z) (Real.cos rot_z)
        ((sample ⟨Real.sin, Real.cos, Real.pi⟩ width height r1 r2 z_offset rot_x rot_z theta phi).torus_x, (sample ⟨Real.sin, Real.cos, Real.pi⟩ width height r1 r2 z_offset rot_x rot_z theta phi).torus_y, (sample ⟨Real.sin, Real.cos, Real.pi⟩ width height r1 r2 z_offset rot_x rot_z theta phi).torus_z) ∧
    (sample ⟨Real.sin, Real.cos, Real.pi⟩ width height r1 r2 z_offset rot_x rot_z theta phi).luminance =
      0 * (rotate (Real.sin rot_x) (Real.cos rot_x) (Real.sin rot_z) (Real.cos rot_z)
        ((sample ⟨Real.sin, Real.cos, Real.pi⟩ width height r1 r2 z_offset rot_x rot_z theta phi).n_x1, (sample ⟨Real.sin, Real.cos, Real.pi⟩ width height r1 r2 z_offset rot_x rot_z theta phi).n_y1, (sample ⟨Real.sin, Real.cos, Real.pi⟩ width height r1 r2 z_offset rot_x rot_z theta phi).n_z1)).1 +
      1 * (rotate (Real.sin rot_x) (Real.cos rot_x) (Real.sin rot_z) (Real.cos rot_z)
        ((sample ⟨Real.sin, Real.cos, Real.pi⟩ width height r1 r2 z_offset rot_x rot_z theta phi).n_x1, (sample ⟨Real.sin, Real.cos, Real.pi⟩ width height r1 r2 z_offset rot_x rot_z theta phi).n_y1, (sample ⟨Real.sin, Real.cos, Real.pi⟩ width height r1 r2 z_offset rot_x rot_z theta phi).n_z1)).2.1 +
      -1 * (rotate (Real.sin rot_x) (Real.cos rot_x) (Real.sin rot_z) (Real.cos rot_z)
        ((sample ⟨Real.sin, Real.cos, Real.pi⟩ width height r1 r2 z_offset rot_x rot_z theta phi).n_x1, (sample ⟨Real.sin, Real.cos, Real.pi⟩ width height r1 r2 z_offset rot_x rot_z theta phi).n_y1, (sample ⟨Real.sin, Real.cos, Real.pi⟩ width height r1 r2 z_offset rot_x rot_z theta phi).n_z1)).2.2 := by
  have h0 : (r2 : ℝ) ≠ 0 := by exact_mod_cast (Nat.pos_iff_ne_zero.mp hr2)
  have hθ := Real.sin_sq_add_cos_sq theta
  have hφ := Real.sin_sq_add_cos_sq phi
  refine ⟨?_, ?_, ?_, ?_, ?_, ?_⟩
  · simp only [sample]
    linear_combination (Real.cos phi) ^ 2 * hθ + hφ
  · simp only [sample]; field_simp; ring
  · simp only [sample]; field_simp
  · simp only [sample]; field_simp; ring
  · simp only [sample, rotate]
    refine Prod.ext ?_ (Prod.ext ?_ ?_) <;> simp
  · simp only [sample, rotate]; ring

/-- C17 with the constants of `main` and the angles `1`, `2`, `3`, `4`. -/
theorem normal_is_unit_and_rotated_witness :
    0 < 1 ∧
    (sample ⟨Real.sin, Real.cos, Real.pi⟩ 50 25 2 1 5 1 2 3 4).n_x1 ^ 2 +
    (sample ⟨Real.sin, Real.cos, Real.pi⟩ 50 25 2 1 5 1 2 3 4).n_y1 ^ 2 +
    (sample ⟨Real.sin, Real.cos, Real.pi⟩ 50 25 2 1 5 1 2 3 4).n_z1 ^ 2 = 1 :=
  ⟨by norm_num, (normal_is_unit_and_rotated 50 25 2 1 (by norm_num) 5 1 2 3 4).1⟩

/-! ## Claims on draw_torus -/

/-- C12. For every width and height, every `r1`, `r2` and `z_offset > r1 + r2`
(in particular for `r2 > 0`, `r1 > r2`, width and height at least `1`) and
positive angle steps: some amount of fuel is enough for both loops, with at
least that much `draw_torus` is the plotting of all its samples on the cleared
buffers (it completes unless a plot has no result), and whenever `draw_torus`
completes the resulting framebuffer has a cell whose character is not the
space character. -/
theorem draw_torus_nonblank {K : Type} [LinearOrderedField K] [FloorRing K]
    (T : Libm K) (hT : ∀ t, T.sin t ^ 2 + T.cos t ^ 2 = 1) (hpi : 0 < T.M_PI)
    (fb : Fb) (zbuf : ZBuf K) (hfb : fb.WF) (hzb : zbuf.WF)
    (r1 r2 : Nat) (z_offset angle_step_theta angle_step_phi rot_x rot_z : K)
    (hz : (r1 : K) + (r2 : K) < z_offset)
    (htheta : 0 < angle_step_theta) (hphi : 0 < angle_step_phi) :
    (∃ N, ∀ fuel, N ≤ fuel →
      draw_torus T fuel fb zbuf r1 r2 z_offset angle_step_theta angle_step_phi rot_x rot_z =
        plot_all (decide (mult_den r1 r2 = 0))
          (samples T fuel fb.width fb.height r1 r2 z_offset angle_step_theta angle_step_phi
            rot_x rot_z) (fb.clear, zbuf.clear) ∧
      samples T fuel fb.width fb.height r1 r2 z_offset angle_step_theta angle_step_phi
          rot_x rot_z =
        samples T N fb.width fb.height r1 r2 z_offset angle_step_theta angle_step_phi
          rot_x rot_z) ∧
    (∀ fuel fb1 zb1,
      draw_torus T fuel fb zbuf r1 r2 z_offset angle_step_theta angle_step_phi rot_x rot_z =
        some (fb1, zb1) →
      ∃ x y c, x < fb.width ∧ y < fb.height ∧ fb1.get x y = some c ∧ c ≠ ' ') := by
  constructor
  · obtain ⟨n, hn⟩ := exists_nat_ge (2 * T.M_PI / angle_step_theta)
    obtain ⟨m, hm⟩ := exists_nat_ge (2 * T.M_PI / angle_step_phi)
    have hn1 : 2 * T.M_PI ≤ n * angle_step_theta := (div_le_iff₀ htheta).mp hn
    have hm1 : 2 * T.M_PI ≤ m * angle_step_phi := (div_le_iff₀ hphi).mp hm
    refine ⟨n + m + 1, fun fuel hf => ⟨?_, ?_⟩⟩
    · exact draw_torus_eq_plot_all T fuel n m (by omega) (by omega) fb zbuf r1 r2 z_offset
        angle_step_theta angle_step_phi rot_x rot_z hn1 hm1
    · simp only [samples]
      rw [angles_eq_of_enough T angle_step_theta fuel (n + m + 1) n 0 (by omega) (by omega)
          (by rw [zero_add]; exact hn1),
        angles_eq_of_enough T angle_step_phi fuel (n + m + 1) m 0 (by omega) (by omega)
          (by rw [zero_add]; exact hm1)]
  · intro fuel fb1 zb1 hrun
    exact draw_torus_first_cell T hT hpi fuel fb zbuf hfb hzb r1 r2 z_offset angle_step_theta
      angle_step_phi rot_x rot_z hz (fb1, zb1) hrun

/-- C12 on the run `draw_torus_tie_run`. -/
theorem draw_torus_nonblank_witness :
    (Fb.WF ⟨2, 1, ['a', 'b']⟩ ∧ ZBuf.WF (⟨2, 1, [1, 2]⟩ : ZBuf Rat) ∧
      ((2 : Nat) : Rat) + ((1 : Nat) : Rat) < 5 ∧ (0 : Rat) < 4 ∧
      draw_torus (⟨fun _ => 0, fun _ => 1, 3⟩ : Libm Rat) 3 ⟨2, 1, ['a', 'b']⟩ ⟨2, 1, [1, 2]⟩
        2 1 5 4 4 0 0 = some (⟨2, 1, [' ', '.']⟩, ⟨2, 1, [0, 1 / 5]⟩)) ∧
    ∃ x y c, x < 2 ∧ y < 1 ∧ (Fb.mk 2 1 [' ', '.']).get x y = some c ∧ c ≠ ' ' :=
  ⟨⟨by simp [Fb.WF, UINT_MOD], by simp [ZBuf.WF, UINT_MOD], by norm_num, by norm_num,
      draw_torus_tie_run⟩,
   (draw_torus_nonblank (⟨fun _ => 0, fun _ => 1, 3⟩ : Libm Rat) (fun _ => by norm_num)
     (by norm_num) ⟨2, 1, ['a', 'b']⟩ ⟨2, 1, [1, 2]⟩ (by simp [Fb.WF, UINT_MOD])
     (by simp [ZBuf.WF, UINT_MOD]) 2 1 5 4 4 0 0 (by norm_num) (by norm_num)
     (by norm_num)).2 3 ⟨2, 1, [' ', '.']⟩
     ⟨2, 1, [0, 1 / 5]⟩ draw_torus_tie_run⟩

/-- C13. With width `50`, height `25`, `r1 = 2`, `r2 = 1`, `z_offset = 5`, both
steps `0.02`, `rot_x = rot_z = 0` and the real `sin`, `cos`: `draw_torus`
completes once the fuel covers the loops, and every framebuffer cell that then
holds `@` was written by the sample that won the depth test of that cell (the
earliest of maximal `ooz`), whose luminance index is `11` and whose luminance
is at least `11/8`. -/
theorem at_sign_only_from_bright_sample (fb : Fb) (zbuf : ZBuf ℝ) (hfb : fb.WF)
    (hzb : zbuf.WF) (hfw : fb.width = 50) (hfh : fb.height = 25) (hzw : zbuf.width = 50)
    (hzh : zbuf.height = 25) (fuel : Nat) (hfuel : 316 ≤ fuel) :
    ∃ fb1 zb1,
      draw_torus ⟨Real.sin, Real.cos, Real.pi⟩ fuel fb zbuf 2 1 5 (1 / 50) (1 / 50) 0 0 = some (fb1, zb1) ∧
      ∀ x y, fb1.get x y = some '@' →
        ∃ pre s post,
          samples ⟨Real.sin, Real.cos, Real.pi⟩ fuel 50 25 2 1 5 (1 / 50) (1 / 50) 0 0 = pre ++ s :: post ∧
          s.cell = (x, y) ∧
          (∀ t ∈ pre, t.cell = (x, y) → t.ooz < s.ooz) ∧
          (∀ t ∈ post, t.cell = (x, y) → t.ooz ≤ s.ooz) ∧
          zb1.get x y = some s.ooz ∧
          luminance_index s.luminance = 11 ∧ 11 / 8 ≤ s.luminance := by
  have hT : ∀ t : ℝ, (Libm.mk Real.sin Real.cos Real.pi).sin t ^ 2 +
      (Libm.mk Real.sin Real.cos Real.pi).cos t ^ 2 = 1 := fun t => Real.sin_sq_add_cos_sq t
  obtain ⟨r, hrun⟩ := main_draw_torus_completes _ hT fuel 315 315 (by omega) (by omega) fb
    zbuf hfb hzb hfw hfh hzw hzh (1 / 50) (1 / 50) 0 0 main_loop_bound main_loop_bound
  refine ⟨r.1, r.2, hrun, fun x y hat => ?_⟩
  have hb : x < fb.width ∧ y < fb.height := by
    have hd := plot_all_dims _ _ _ r
      ((draw_torus_eq_plot_all _ fuel 315 315 (by omega) (by omega) fb zbuf 2 1 5 (1 / 50)
        (1 / 50) 0 0 main_loop_bound main_loop_bound).symm.trans hrun)
    by_contra hc
    have hc2 : ¬ (x < r.1.width ∧ y < r.1.height) := by rw [hd.1, hd.2]; exact hc
    simp [Fb.get, hc2] at hat
  have hz : ((2 : Nat) : ℝ) + ((1 : Nat) : ℝ) < 5 := by norm_num
  rcases draw_torus_cell_char _ hT fuel fb zbuf hfb hzb 2 1 5 (1 / 50) (1 / 50) 0 0 hz r hrun
    x y hb.1 hb.2 with hblank | ⟨pre, s, post, c, hS, hs, hpre, hpost, hzg, hc, hfg⟩
  · rw [hblank] at hat
    exact absurd (Option.some.inj hat) (by decide)
  · rw [hfw, hfh] at hS
    rw [hfg] at hat
    obtain rfl := Option.some.inj hat
    have h11 := ramp_at_eq_at_sign _ hc
    exact ⟨pre, s, post, hS, hs, hpre, hpost, hzg, h11,
      le_of_luminance_index_eq_eleven _ h11⟩

/-- C13 on freshly constructed `50 × 25` buffers, with fuel `316`. -/
theorem at_sign_only_from_bright_sample_witness :
    ((Fb.create 50 25).WF ∧ (ZBuf.create (0 : ℝ) 50 25).WF ∧ 316 ≤ 316) ∧
    ∃ fb1 zb1,
      draw_torus ⟨Real.sin, Real.cos, Real.pi⟩ 316 (Fb.create 50 25) (ZBuf.create 0 50 25) 2 1 5 (1 / 50) (1 / 50) 0 0 =
        some (fb1, zb1) ∧
      ∀ x y, fb1.get x y = some '@' →
        ∃ pre s post,
          samples ⟨Real.sin, Real.cos, Real.pi⟩ 316 50 25 2 1 5 (1 / 50) (1 / 50) 0 0 = pre ++ s :: post ∧
          s.cell = (x, y) ∧
          (∀ t ∈ pre, t.cell = (x, y) → t.ooz < s.ooz) ∧
          (∀ t ∈ post, t.cell = (x, y) → t.ooz ≤ s.ooz) ∧
          zb1.get x y = some s.ooz ∧
          luminance_index s.luminance = 11 ∧ 11 / 8 ≤ s.luminance :=
  ⟨⟨fb_create_WF 50 25 (by norm_num [UINT_MOD]) (by norm_num [UINT_MOD])
      (by norm_num [UINT_MOD]),
    zbuf_create_WF 0 50 25 (by norm_num [UINT_MOD]) (by norm_num [UINT_MOD])
      (by norm_num [UINT_MOD]), le_refl 316⟩,
   at_sign_only_from_bright_sample (Fb.create 50 25) (ZBuf.create 0 50 25)
     (fb_create_WF 50 25 (by norm_num [UINT_MOD]) (by norm_num [UINT_MOD])
       (by norm_num [UINT_MOD]))
     (zbuf_create_WF 0 50 25 (by norm_num [UINT_MOD]) (by norm_num [UINT_MOD])
       (by norm_num [UINT_MOD])) rfl rfl rfl rfl 316 (le_refl 316)⟩

/-- C14, as stated, fails: with width `50`, height `25`, `r1 = 2`, `r2 = 1`,
`z_offset = 5`, both steps `0.02`, `rot_x = rot_z = 0` and the real `sin`,
`cos`, the run on freshly constructed buffers completes and its framebuffer has
a cell `(x, y)` with `get(x, y) ≠ get(x, 24 - y)`. -/
theorem frame_symmetry_counterexample :
    ∃ fb1 zb1,
      draw_torus ⟨Real.sin, Real.cos, Real.pi⟩ 316 (Fb.create 50 25) (ZBuf.create 0 50 25) 2 1 5 (1 / 50) (1 / 50) 0 0 =
        some (fb1, zb1) ∧
      ¬ (∀ x y, x < 50 → y < 25 → fb1.get x y = fb1.get x (24 - y)) := by
  obtain ⟨fb1, zb1, hrun, _, _, _, x, y, hx, hy, hne⟩ :=
    main_rot0_frame (Fb.create 50 25) (ZBuf.create 0 50 25)
      (fb_create_WF 50 25 (by norm_num [UINT_MOD]) (by norm_num [UINT_MOD])
        (by norm_num [UINT_MOD]))
      (zbuf_create_WF 0 50 25 (by norm_num [UINT_MOD]) (by norm_num [UINT_MOD])
        (by norm_num [UINT_MOD])) rfl rfl rfl rfl 316 (le_refl 316)
  exact ⟨fb1, zb1, hrun, fun h => hne (h x y hx hy)⟩

/-- C14, amended. With width `50`, height `25`, `r1 = 2`, `r2 = 1`,
`z_offset = 5`, both steps `0.02` and `rot_x = rot_z = 0` the rendered frame is
not symmetric top-to-bottom, because the torus is lit from above: the rows
`17..24` hold only the blank or the darkest character `.`, the rows `0..7`
never hold `.` and have a cell that is not blank, so some cell differs from its
mirror image. Only the geometry is mirror-symmetric: the samples at
`(theta, phi)` and `(theta, -phi)` have the same `torus_x3` and `torus_z3` and
opposite `torus_y3`, and their luminances differ by `2 sin phi`. -/
theorem frame_lit_from_above (fb : Fb) (zbuf : ZBuf ℝ) (hfb : fb.WF) (hzb : zbuf.WF)
    (hfw : fb.width = 50) (hfh : fb.height = 25) (hzw : zbuf.width = 50)
    (hzh : zbuf.height = 25) (fuel : Nat) (hfuel : 316 ≤ fuel) :
    (∃ fb1 zb1,
      draw_torus ⟨Real.sin, Real.cos, Real.pi⟩ fuel fb zbuf 2 1 5 (1 / 50) (1 / 50) 0 0 = some (fb1, zb1) ∧
      (∀ x y, x < 50 → 17 ≤ y → y < 25 →
        fb1.get x y = some ' ' ∨ fb1.get x y = some '.') ∧
      (∀ x y, x < 50 → y ≤ 7 → fb1.get x y ≠ some '.') ∧
      (∃ x y c, x < 50 ∧ y ≤ 7 ∧ fb1.get x y = some c ∧ c ≠ ' ') ∧
      (∃ x y, x < 50 ∧ y < 25 ∧ fb1.get x y ≠ fb1.get x (24 - y))) ∧
    (∀ theta phi : ℝ,
      (sample ⟨Real.sin, Real.cos, Real.pi⟩ 50 25 2 1 5 0 0 theta (-phi)).torus_x3 =
        (sample ⟨Real.sin, Real.cos, Real.pi⟩ 50 25 2 1 5 0 0 theta phi).torus_x3 ∧
      (sample ⟨Real.sin, Real.cos, Real.pi⟩ 50 25 2 1 5 0 0 theta (-phi)).torus_z3 =
        (sample ⟨Real.sin, Real.cos, Real.pi⟩ 50 25 2 1 5 0 0 theta phi).torus_z3 ∧
      (sample ⟨Real.sin, Real.cos, Real.pi⟩ 50 25 2 1 5 0 0 theta (-phi)).torus_y3 =
        -(sample ⟨Real.sin, Real.cos, Real.pi⟩ 50 25 2 1 5 0 0 theta phi).torus_y3 ∧
      (sample ⟨Real.sin, Real.cos, Real.pi⟩ 50 25 2 1 5 0 0 theta (-phi)).luminance =
        (sample ⟨Real.sin, Real.cos, Real.pi⟩ 50 25 2 1 5 0 0 theta phi).luminance - 2 * Real.sin phi) := by
  refine ⟨main_rot0_frame fb zbuf hfb hzb hfw hfh hzw hzh fuel hfuel, fun theta phi => ?_⟩
  refine ⟨?_, ?_, ?_, ?_⟩ <;>
    simp only [sample, Real.sin_neg, Real.cos_neg, Real.sin_zero, Real.cos_zero] <;> ring

/-- C14, amended, on freshly constructed `50 × 25` buffers, with fuel `316`. -/
theorem frame_lit_from_above_witness :
    ((Fb.create 50 25).WF ∧ (ZBuf.create (0 : ℝ) 50 25).WF ∧ 316 ≤ 316) ∧
    ∃ fb1 zb1,
      draw_torus ⟨Real.sin, Real.cos, Real.pi⟩ 316 (Fb.create 50 25) (ZBuf.create 0 50 25) 2 1 5 (1 / 50) (1 / 50) 0 0 =
        some (fb1, zb1) ∧
      (∀ x y, x < 50 → 17 ≤ y → y < 25 →
        fb1.get x y = some ' ' ∨ fb1.get x y = some '.') ∧
      (∀ x y, x < 50 → y ≤ 7 → fb1.get x y ≠ some '.') ∧
      (∃ x y c, x < 50 ∧ y ≤ 7 ∧ fb1.get x y = some c ∧ c ≠ ' ') ∧
      (∃ x y, x < 50 ∧ y < 25 ∧ fb1.get x y ≠ fb1.get x (24 - y)) :=
  ⟨⟨fb_create_WF 50 25 (by norm_num [UINT_MOD]) (by norm_num [UINT_MOD])
      (by norm_num [UINT_MOD]),
    zbuf_create_WF 0 50 25 (by norm_num [UINT_MOD]) (by norm_num [UINT_MOD])
      (by norm_num [UINT_MOD]), le_refl 316⟩,
   (frame_lit_from_above (Fb.create 50 25) (ZBuf.create 0 50 25)
     (fb_create_WF 50 25 (by norm_num [UINT_MOD]) (by norm_num [UINT_MOD])
       (by norm_num [UINT_MOD]))
     (zbuf_create_WF 0 50 25 (by norm_num [UINT_MOD]) (by norm_num [UINT_MOD])
       (by norm_num [UINT_MOD])) rfl rfl rfl rfl 316 (le_refl 316)).1⟩

/-- C18. The result of `draw_torus` does not depend on what the buffers held: two
framebuffers of the same dimensions and two depth buffers of the same
dimensions, each with a block of the size its constructor allocates and with
arbitrary contents, give the same result for the same arguments. -/
theorem draw_torus_ignores_contents {K : Type} [LinearOrderedField K] [FloorRing K]
    (T : Libm K) (fuel : Nat) (fb fb2 : Fb) (zbuf zbuf2 : ZBuf K)
    (hw : fb2.width = fb.width) (hh : fb2.height = fb.height)
    (hzw : zbuf2.width = zbuf.width) (hzh : zbuf2.height = zbuf.height)
    (hl : fb.buf.length = Fb.cells fb.width fb.height)
    (hl2 : fb2.buf.length = Fb.cells fb2.width fb2.height)
    (hzl : zbuf.buf.length = Fb.cells zbuf.width zbuf.height)
    (hzl2 : zbuf2.buf.length = Fb.cells zbuf2.width zbuf2.height)
    (r1 r2 : Nat) (z_offset angle_step_theta angle_step_phi rot_x rot_z : K) :
    draw_torus T fuel fb2 zbuf2 r1 r2 z_offset angle_step_theta angle_step_phi rot_x rot_z =
    draw_torus T fuel fb zbuf r1 r2 z_offset angle_step_theta angle_step_phi rot_x rot_z := by
  have e1 : fb2.clear = fb.clear := by
    rw [fb_clear_eq fb2 hl2, fb_clear_eq fb hl, hw, hh]
  have e2 : zbuf2.clear = zbuf.clear := by
    rw [zbuf_clear_eq zbuf2 hzl2, zbuf_clear_eq zbuf hzl, hzw, hzh]
  simp only [draw_torus, e1, e2]

/-- C18 on the run `draw_torus_tie_run`, started from two different contents. -/
theorem draw_torus_ignores_contents_witness :
    ((Fb.mk 2 1 ['x', 'y']).buf.length = Fb.cells 2 1 ∧
      (ZBuf.mk 2 1 [7, 8] : ZBuf Rat).buf.length = Fb.cells 2 1) ∧
    draw_torus (⟨fun _ => 0, fun _ => 1, 3⟩ : Libm Rat) 3 ⟨2, 1, ['x', 'y']⟩ ⟨2, 1, [7, 8]⟩
      2 1 5 4 4 0 0 =
    draw_torus (⟨fun _ => 0, fun _ => 1, 3⟩ : Libm Rat) 3 ⟨2, 1, ['a', 'b']⟩ ⟨2, 1, [1, 2]⟩
      2 1 5 4 4 0 0 :=
  ⟨⟨by simp [Fb.cells, UINT_MOD], by simp [Fb.cells, UINT_MOD]⟩,
   draw_torus_ignores_contents _ 3 ⟨2, 1, ['a', 'b']⟩ ⟨2, 1, ['x', 'y']⟩ ⟨2, 1, [1, 2]⟩
     ⟨2, 1, [7, 8]⟩ rfl rfl rfl rfl (by simp [Fb.cells, UINT_MOD]) (by simp [Fb.cells, UINT_MOD])
     (by simp [Fb.cells, UINT_MOD]) (by simp [Fb.cells, UINT_MOD]) 2 1 5 4 4 0 0⟩

end Donut
